import Mathlib

/-!
# Verification of the IRC client message codec and connection orchestrator

A shallow embedding, in Lean 4, of the message codec (hand-written lexical
scanner, `Message.MarshalText` / `Message.UnmarshalText`), the tag escaping
tables, the capability-negotiation middleware, and the pure decision logic of
the connection orchestrator (`Client.ConnectAndRun` setup, `Client.WriteMessage`,
and the end-of-stream error rewriting) of the `irc` Go package.

Go strings are modelled as Lean `String` (field values) and `List Char`
(scanner input / marshal buffers); Go byte counts are computed with UTF-8
sizes (`Char.utf8Size`), matching `bytes.Buffer.Len` on UTF-8 text.
Go `nil` maps/slices are `Option` / `[]`.  Names follow the Go source except
where a name would clash with the verification environment: the Go type
`Prefix` is rendered `Pfx`, and the unexported Go field `includePrefix` is
rendered `includeSource`.
-/

namespace Irc

/-- UTF-8 byte length of a character buffer, modelling Go's `bytes.Buffer.Len`. -/
def utf8Len (l : List Char) : Nat := (l.map Char.utf8Size).sum

/-- Consume a run of spaces, modelling `l.ignoreRun(" ")` in the lexer. -/
def dropSpaces (s : List Char) : List Char := s.dropWhile (fun c => c = ' ')

theorem dropSpaces_length_le (s : List Char) : (dropSpaces s).length ≤ s.length := by
  induction s with
  | nil => exact Nat.le_refl _
  | cons c r ih =>
    unfold dropSpaces at *
    rw [List.dropWhile_cons]
    split
    · exact Nat.le_succ_of_le ih
    · exact Nat.le_refl _

/-- A token returned from the scanner (Go `item`, with its `itemType`).
The `error` payload is the diagnostic text; `eof` ends a successful scan. -/
inductive Item where
  | tagKey (v : String)
  | tagValue (v : String)
  | nickname (v : String)
  | user (v : String)
  | host (v : String)
  | command (v : String)
  | param (v : String)
  | error (v : String)
  | eof
  deriving DecidableEq, Repr

/-- The payload of an item (Go `item.val`; the zero item has empty `val`). -/
def Item.val : Item → String
  | .tagKey v => v
  | .tagValue v => v
  | .nickname v => v
  | .user v => v
  | .host v => v
  | .command v => v
  | .param v => v
  | .error v => v
  | .eof => ""

/-- Go `invalidTagNameChar`: a tag key may contain ASCII letters, digits,
hyphen, and the pass-through characters `+`, `/`, `.`. -/
def invalidTagNameChar (r : Char) : Bool :=
  if r = '+' ∨ r = '/' ∨ r = '.' then false
  else !(('a' ≤ r ∧ r ≤ 'z') ∨ ('A' ≤ r ∧ r ≤ 'Z') ∨ ('0' ≤ r ∧ r ≤ '9') ∨ r = '-')

mutual

/-- Go `lexTagKey`: scan a tag key up to `=`, `;` or space (the two latter are
left in place, mirroring `l.backup()`), erroring on eof or an invalid key
character.  `acc` is the scanned segment `l.input[l.start:l.pos]`. -/
def lexTagKey (acc : List Char) (s : List Char) : List Item :=
  match s with
  | [] => [.error ("unexpected end of input while reading tag name")]
  | c :: r =>
    if c = '=' then .tagKey acc.asString :: lexTagValue [] r
    else if c = ';' ∨ c = ' ' then .tagKey acc.asString :: lexTagValue [] (c :: r)
    else if invalidTagNameChar c then
      [.error ("invalid character found while reading tag name")]
    else lexTagKey (acc ++ [c]) r

termination_by 10 * s.length + 5
decreasing_by
  all_goals simp_wf
  all_goals first
    | omega
    | (have h1 := dropSpaces_length_le r; omega)
    | (have h1 := dropSpaces_length_le s; omega)

/-- Go `lexTagValue`: scan a tag value up to `;` (next tag) or space (end of
the tag section), erroring on eof. -/
def lexTagValue (acc : List Char) (s : List Char) : List Item :=
  match s with
  | [] => [.error ("unexpected end of input while reading tag value")]
  | c :: r =>
    if c = ';' then .tagValue acc.asString :: lexTagEnd r
    else if c = ' ' then .tagValue acc.asString :: lexAfterTags (dropSpaces (c :: r))
    else lexTagValue (acc ++ [c]) r

termination_by 10 * s.length + 4
decreasing_by
  all_goals simp_wf
  all_goals first
    | omega
    | (have h1 := dropSpaces_length_le r; omega)
    | (have h1 := dropSpaces_length_le s; omega)

/-- Go `lexTagEnd`: the `;` has already been consumed; a space ends the tag
section, otherwise another key follows. -/
def lexTagEnd (s : List Char) : List Item :=
  match s with
  | [] => lexTagKey [] []
  | c :: r => if c = ' ' then lexAfterTags (dropSpaces (c :: r)) else lexTagKey [] (c :: r)

termination_by 10 * s.length + 6
decreasing_by
  all_goals simp_wf
  all_goals first
    | omega
    | (have h1 := dropSpaces_length_le r; omega)
    | (have h1 := dropSpaces_length_le s; omega)

/-- The shared dispatch after the tag section's terminating space run
(identical code in Go's `lexTagValue` and `lexTagEnd`): a `:` starts the
message source, eof is an error, anything else is the command. -/
def lexAfterTags (s : List Char) : List Item :=
  match s with
  | [] => [.error ("unexpected end of input after message tags")]
  | c :: r => if c = ':' then lexNickname [] r else lexCommandA [] (c :: r)

termination_by 10 * s.length + 7
decreasing_by
  all_goals simp_wf
  all_goals first
    | omega
    | (have h1 := dropSpaces_length_le r; omega)
    | (have h1 := dropSpaces_length_le s; omega)

/-- Go `lexNickname`: scan the nickname part of a message source.  A `.` means
the source was in the host form (the scan continues in `lexHost` without
emitting, so the accumulated text stays part of the host); a `!` means the
full-address form. -/
def lexNickname (acc : List Char) (s : List Char) : List Item :=
  match s with
  | [] => [.error ("unexpected end of input")]
  | c :: r =>
    if c = ' ' then
      .nickname acc.asString ::
        (if (dropSpaces r).isEmpty then [.error ("unexpected end of input; expected command")]
         else lexCommandA [] (dropSpaces r))
    else if c = '.' then lexHost (acc ++ [c]) r
    else if c = '!' then .nickname acc.asString :: lexUser [] r
    else lexNickname (acc ++ [c]) r

termination_by 10 * s.length + 5
decreasing_by
  all_goals simp_wf
  all_goals first
    | omega
    | (have h1 := dropSpaces_length_le r; omega)
    | (have h1 := dropSpaces_length_le s; omega)

/-- Go `lexUser`: scan the user part up to `@`; a space or eof is an error. -/
def lexUser (acc : List Char) (s : List Char) : List Item :=
  match s with
  | [] => [.error ("unexpected end of input")]
  | c :: r =>
    if c = '@' then .user acc.asString :: lexHost [] r
    else if c = ' ' then [.error ("expected host, found end of prefix")]
    else lexUser (acc ++ [c]) r

termination_by 10 * s.length + 4
decreasing_by
  all_goals simp_wf
  all_goals first
    | omega
    | (have h1 := dropSpaces_length_le r; omega)
    | (have h1 := dropSpaces_length_le s; omega)

/-- Go `lexHost`: scan the host up to the terminating space; eof is an error. -/
def lexHost (acc : List Char) (s : List Char) : List Item :=
  match s with
  | [] => [.error ("expected command, found end of input")]
  | c :: r =>
    if c = ' ' then .host acc.asString :: lexCommandA [] (dropSpaces r)
    else lexHost (acc ++ [c]) r

termination_by 10 * s.length + 3
decreasing_by
  all_goals simp_wf
  all_goals first
    | omega
    | (have h1 := dropSpaces_length_le r; omega)
    | (have h1 := dropSpaces_length_le s; omega)

/-- Go `lexCommand`: scan a run of non-space characters; the command must be
nonempty, and eof right after the command is a valid zero-parameter message. -/
def lexCommandA (acc : List Char) (s : List Char) : List Item :=
  match s with
  | [] =>
    if acc.isEmpty then [.error ("unexpected eof; command is empty")]
    else [.command acc.asString, .eof]
  | c :: r =>
    if c = ' ' then
      if acc.isEmpty then [.error ("unexpected end of command; command is empty")]
      else .command acc.asString :: lexParam (dropSpaces r)
    else lexCommandA (acc ++ [c]) r

termination_by 10 * s.length + 2
decreasing_by
  all_goals simp_wf
  all_goals first
    | omega
    | (have h1 := dropSpaces_length_le r; omega)
    | (have h1 := dropSpaces_length_le s; omega)

/-- Go `lexParam`: a parameter beginning with `:` consumes the rest of the
line as the trailing parameter; otherwise scan a space-delimited run. -/
def lexParam (s : List Char) : List Item :=
  match s with
  | [] => lexParamBody [] []
  | c :: r => if c = ':' then [.param r.asString, .eof] else lexParamBody [] (c :: r)

termination_by 10 * s.length + 2
decreasing_by
  all_goals simp_wf
  all_goals first
    | omega
    | (have h1 := dropSpaces_length_le r; omega)
    | (have h1 := dropSpaces_length_le s; omega)

/-- The scanning loop of Go `lexParam` (after the trailing-marker peek):
eof emits the accumulated (possibly empty) parameter. -/
def lexParamBody (acc : List Char) (s : List Char) : List Item :=
  match s with
  | [] => [.param acc.asString, .eof]
  | c :: r =>
    if c = ' ' then .param acc.asString :: lexParam (dropSpaces r)
    else lexParamBody (acc ++ [c]) r

termination_by 10 * s.length + 1
decreasing_by
  all_goals simp_wf
  all_goals first
    | omega
    | (have h1 := dropSpaces_length_le r; omega)
    | (have h1 := dropSpaces_length_le s; omega)

end

/-- Go `lexStart`: dispatch on the first character of the line. -/
def lexStart (s : List Char) : List Item :=
  match s with
  | [] => lexCommandA [] []
  | c :: r =>
    if c = '@' then lexTagKey [] r
    else if c = ':' then lexNickname [] r
    else lexCommandA [] (c :: r)


/-- Go `lex` + `nextItem` loop: the full token stream of one input line. -/
def lex (text : List Char) : List Item := lexStart text

/-! ## Tag-value escaping (Go `escaper` / `unescaper`, `strings.NewReplacer`) -/

/-- One step of Go's `escaper` replacer (all patterns are single characters):
`;`→`\:`, CR→`\r`, LF→`\n`, SP→`\s`, `\`→`\\`. -/
def escChar (c : Char) : List Char :=
  if c = ';' then ['\\', ':']
  else if c = '\r' then ['\\', 'r']
  else if c = '\n' then ['\\', 'n']
  else if c = ' ' then ['\\', 's']
  else if c = '\\' then ['\\', '\\']
  else [c]

/-- Go `escaper.Replace` on the character list. -/
def escaperL (s : List Char) : List Char := s.flatMap escChar

/-- Go `escaper.Replace`: escapes message tag values for transmission. -/
def escaperReplace (s : String) : String := (escaperL s.toList).asString

/-- Go `unescaper.Replace` on the character list.  The replacer scans left to
right; at a backslash it prefers the two-character patterns `\:`, `\r`, `\n`,
`\s`, `\\` (in argument order) and otherwise drops the bare backslash,
keeping the following character literally. -/
def unescaperL : List Char → List Char
  | [] => []
  | c :: r =>
    if c = '\\' then
      match r with
      | [] => []  -- a bare trailing backslash is dropped
      | c2 :: r2 =>
        if c2 = ':' then ';' :: unescaperL r2
        else if c2 = 'r' then '\r' :: unescaperL r2
        else if c2 = 'n' then '\n' :: unescaperL r2
        else if c2 = 's' then ' ' :: unescaperL r2
        else if c2 = '\\' then '\\' :: unescaperL r2
        else unescaperL (c2 :: r2)  -- unrecognized escape: backslash removed
    else c :: unescaperL r

/-- Go `unescaper.Replace`: unescapes message tag values. -/
def unescaperReplace (s : String) : String := (unescaperL s.toList).asString

/-! ## Data model: `Tags`, `Prefix` (here `Pfx`), `Command`, `Params`, `Message` -/

/-- Go `Tags` (`map[string]string`).  A Go `nil` map is `none`; a non-`nil`
map is `some` of an association list whose iteration order stands in for the
map's iteration order. -/
abbrev Tags := Option (List (String × String))

/-- Map assignment on the association list: overwrite the key if present,
append otherwise. -/
def setPair : List (String × String) → String → String → List (String × String)
  | [], k, v => [(k, v)]
  | kv :: r, k, v => if kv.1 = k then (k, v) :: r else kv :: setPair r k v

/-- Go `Tags.Set`: allocates the map when `nil`, then assigns. -/
def Tags.Set (t : Tags) (k v : String) : Tags := some (setPair (t.getD []) k v)

/-- The key/value pairs of a tag map (`nil` and empty read the same). -/
def Tags.pairs (t : Tags) : List (String × String) := t.getD []

/-- Go `Tags.Get`: missing keys read as the empty string. -/
def Tags.Get (t : Tags) (key : String) : String :=
  (((t.getD []).find? (fun kv => kv.1 = key)).map Prod.snd).getD ""

/-- Go `Tags.Has`: membership test. -/
def Tags.Has (t : Tags) (key : String) : Bool :=
  ((t.getD []).find? (fun kv => kv.1 = key)).isSome

/-- Go type `Prefix`: the optional message source triple. -/
structure Pfx where
  nick : String := ""
  user : String := ""
  host : String := ""
  deriving DecidableEq, Repr

/-- Go `Prefix.String`. -/
def Pfx.str (p : Pfx) : String :=
  if p.nick = "" ∧ p.user = "" ∧ p.host = "" then ""
  else if p.nick = "" ∧ p.user = "" then p.host
  else if p.user = "" then p.nick
  else p.nick ++ "!" ++ p.user ++ "@" ++ p.host

/-- Go `Prefix.IsServer`. -/
def Pfx.IsServer (p : Pfx) : Bool := p.host ≠ "" ∧ p.nick = ""

/-- Go `strings.ToUpper` restricted to ASCII case mapping (the IRC commands
and CAP subcommands compared in this package are ASCII). -/
def goToUpper (s : String) : String := (s.toList.map Char.toUpper).asString

/-- Go `Command` (a string). -/
abbrev Command := String

/-- Go `Command.normalize`: upper-case the command. -/
def Command.normalize (c : Command) : Command := goToUpper c

/-- Go `Command.is`: case-insensitive comparison (`strings.EqualFold`,
modelled by ASCII upper-casing both sides). -/
def Command.is (c oc : Command) : Bool := goToUpper c == goToUpper oc

/-- Go `Params` (a string slice). -/
abbrev Params := List String

/-- Go `Params.Get`: ordinal access starting at 1; out-of-range reads as
the empty string. -/
def Params.Get (p : Params) (n : Nat) : String :=
  if n > p.length ∨ n < 1 then "" else p.getD (n - 1) ""

/-- Go `Message`: tags, source, command, params, and the unexported
`includePrefix` flag (here `includeSource`) controlling whether `MarshalText`
writes the source. -/
structure Message where
  tags : Tags := none
  source : Pfx := {}
  command : Command := ""
  params : Params := []
  includeSource : Bool := false
  deriving DecidableEq, Repr

/-- Go `NewMessage`: normalizes the command; tags and source stay empty and
the source is not marshalled. -/
def NewMessage (cmd : Command) (args : List String) : Message :=
  { command := Command.normalize cmd, params := args }

/-- Go `Message.IncludePrefix`. -/
def Message.IncludeSource (m : Message) : Message := { m with includeSource := true }

/-! ## Encoding (`Message.MarshalText`) -/

/-- The base text of Go's `warnTruncate` error. -/
def warnTruncate : String := "message length exceeds IRC limit and may be truncated"

/-- The tag section body written by `MarshalText`: for each pair, the key,
`=`, the escaped value, and the `;` delimiter. -/
def tagBody (ts : List (String × String)) : List Char :=
  ts.flatMap (fun kv => kv.1.toList ++ '=' :: (escaperReplace kv.2).toList ++ [';'])

/-- The parameter section written by `MarshalText`: a space before every
parameter, and the trailing marker `:` always written before the last one. -/
def paramChars : List String → List Char
  | [] => []
  | [p] => ' ' :: ':' :: p.toList
  | p :: rest => ' ' :: (p.toList ++ paramChars rest)

/-- The tag section written by `MarshalText`: leading `@`, the tag body, and
the terminating space (written only when the tag map is non-`nil`). -/
def marshalTagSec (m : Message) : List Char :=
  match m.tags with
  | none => []
  | some ts => '@' :: (tagBody ts ++ [' '])

/-- The source section written by `MarshalText` (only when marshalling the
source is enabled and the source is nonempty). -/
def marshalPfxSec (m : Message) : List Char :=
  if m.includeSource ∧ m.source ≠ ({} : Pfx) then ':' :: ((Pfx.str m.source).toList ++ [' '])
  else []

/-- The full buffer written by `MarshalText`, in strict field order:
tags, source, command, params, CR-LF. -/
def marshalBuf (m : Message) : List Char :=
  marshalTagSec m ++ marshalPfxSec m ++ m.command.toList ++ paramChars m.params ++ ['\r', '\n']

/-- Go's `tbc` (tags byte count): `buf.Len()` right after the tag section. -/
def marshalTagBytes (m : Message) : Nat := utf8Len (marshalTagSec m)

/-- Go's `l := buf.Len() - tbc`: the message byte count excluding tags. -/
def marshalMsgLen (m : Message) : Nat := utf8Len (marshalBuf m) - marshalTagBytes m

/-- Go `Message.MarshalText`: serialize tags, source (when enabled and
nonempty), command, params and the CR-LF terminator, returning the buffer and
the soft-limit warning (a `nil` error is `none`).  Byte counts use UTF-8
sizes, as Go's `bytes.Buffer.Len` does.  `maxLen` is the source's hard-coded
300; the tag ceiling is the source's hard-coded 8000. -/
def Message.MarshalText (m : Message) : List Char × Option String :=
  let maxLen := 300
  let err1 : Option String :=
    match m.tags with
    | none => none
    | some _ =>
      if marshalTagBytes m > 8000 then
        some (warnTruncate ++ ": message tags were " ++ toString (marshalTagBytes m) ++ " bytes")
      else none
  let err2 : Option String :=
    if marshalMsgLen m > maxLen then
      -- Go also assembles a combined warning at this point when err1 is set,
      -- but then overwrites it unconditionally with the following value, so
      -- only the message-length warning ever escapes:
      some (warnTruncate ++ ": message length is " ++ toString (marshalMsgLen m) ++ " bytes")
    else err1
  (marshalBuf m, err2)

/-! ## Decoding (`Message.UnmarshalText`) -/

/-- The token-consuming loop of Go `Message.UnmarshalText`.  An exhausted
item list models reading the zero item from the lexer's closed channel
(`item{itemError, ""}`), which Go reports as an empty error.  After a tag key
the next item is read unconditionally as the tag value. -/
def runItems (m : Message) : List Item → Except String Message
  | [] => .error ""
  | i :: rest =>
    match i with
    | .eof => .ok m
    | .error e => .error e
    | .tagKey k =>
      match rest with
      | [] => .error ""
      | v :: rest2 =>
        runItems
          (if k = "" then m
           else { m with tags := Tags.Set m.tags k (unescaperReplace (Item.val v)) })
          rest2
    | .nickname v => runItems { m with source := { m.source with nick := v } } rest
    | .user v => runItems { m with source := { m.source with user := v } } rest
    | .host v => runItems { m with source := { m.source with host := v } } rest
    | .command v => runItems { m with command := v } rest
    | .param v => runItems { m with params := m.params ++ [v] } rest
    | .tagValue _ => runItems m rest

/-- Go `Message.UnmarshalText`: clears source, command, params and tags
(but not the include-source flag), then consumes the token stream.
`text` must not include the trailing CR-LF pair. -/
def Message.UnmarshalText (m : Message) (text : List Char) : Except String Message :=
  runItems { m with source := {}, command := "", params := [], tags := none } (lex text)

/-- Strip one trailing CR-LF pair, as the client's line scanner
(`bufio.ScanLines`) does before `UnmarshalText` sees the line. -/
def stripCRLF (l : List Char) : List Char :=
  match l.reverse with
  | '\n' :: '\r' :: r => r.reverse
  | _ => l

/-! ## Message constructors used by the client (Go helpers.go excerpts) -/

/-- Go constant `CmdQuit`. -/
def CmdQuit : Command := "QUIT"

/-- Go constant `CmdCap`. -/
def CmdCap : Command := "CAP"

/-- Go `Quit`: constructs the QUIT command. -/
def Quit (message : String) : Message := NewMessage CmdQuit [message]

/-- Go `Cap`: constructs a CAP command with the given subcommand/params. -/
def Cap (args : List String) : Message := NewMessage CmdCap args

/-- Go `CapList`: requests the list of enabled capabilities. -/
def CapList : Message := Cap ["LIST"]

/-- Go `CapEnd`: ends capability negotiation. -/
def CapEnd : Message := Cap ["END"]

/-! ## Connection orchestrator (Go `Client`): the pure decision logic -/

/-- Go `clientStatus` constants. -/
inductive clientStatus where
  | statusDisconnected
  | statusConnecting
  | statusConnected
  | statusDisconnecting
  deriving DecidableEq, Repr

/-- Go `clientState`: the minimal tracked connection state.  The zero value
has empty strings and `statusDisconnected`. -/
structure clientState where
  nick : String := ""
  user : String := ""
  host : String := ""
  server : String := ""
  status : clientStatus := .statusDisconnected
  deriving DecidableEq, Repr

/-- The observable fields of Go `Client` that `ConnectAndRun` touches before
dialling.  Function-valued fields (`DialFn`) and the connection handle are
modelled by presence flags. -/
structure Client where
  Addr : String := ""
  Nickname : String := ""
  User : String := ""
  Realname : String := ""
  Pass : String := ""
  hasDialFn : Bool := false
  hasConn : Bool := false
  state : clientState := {}
  deriving DecidableEq, Repr

/-- Go `c.prefix()`: the estimated source from internal state tracking. -/
def Client.pfx (st : clientState) : Pfx := { nick := st.nick, host := st.host, user := st.user }

/-- Go `strings.Split(c.Addr, ":")[0]`. -/
def addrHost (addr : String) : String := (addr.toList.takeWhile (fun c => c ≠ ':')).asString

/-- Outcome of the sequential entry phase of `ConnectAndRun`, up to and
including the already-connected check (everything before the dial). -/
inductive SetupResult where
  | panicked (msg : String)
  | errored (c : Client) (msg : String)
  | proceed (c : Client)
  deriving DecidableEq, Repr

/-- The entry phase of Go `Client.ConnectAndRun`, in source order: panic on an
empty nickname; default `User` and `Realname`; panic if both `DialFn` and
`Addr` are missing, else install the default dialler; overwrite `c.state`
with the initial state; finally fail if a connection already exists. -/
def connectAndRunSetup (c : Client) : SetupResult :=
  if c.Nickname = "" then .panicked ("client nickname cannot be empty")
  else
    let c1 := if c.User = "" then { c with User := "guest" } else c
    let c2 := if c1.Realname = "" then { c1 with Realname := "..." } else c1
    if ¬c2.hasDialFn ∧ c2.Addr = "" then
      .panicked ("ConnectAndRun: Addr cannot be empty when DialFn is nil")
    else
      let c3 := if ¬c2.hasDialFn then { c2 with hasDialFn := true } else c2
      let c4 := { c3 with
        state := { nick := c3.Nickname, user := c3.User, server := addrHost c3.Addr } }
      if c4.hasConn then .errored c4 ("the client already has a connection")
      else .proceed c4

/-- The terminal errors a run can end with (Go `error` values sent to `errC`).
`ioEOF` is `io.EOF`. -/
inductive runError where
  | ioEOF
  | pingTimeout
  | readChannelClosed
  | other (msg : String)
  deriving DecidableEq, Repr

/-- The final lines of Go `Client.ConnectAndRun`: the error received from the
error channel is rewritten to `nil` exactly when it is `io.EOF` and the
tracked status is `statusDisconnecting`. -/
def connectAndRunReturn (err : Option runError) (status : clientStatus) : Option runError :=
  if err = some .ioEOF ∧ status = .statusDisconnecting then none else err

/-- `bytes.HasPrefix`: does `s` start with `p`? -/
def startsWithL : List Char → List Char → Bool
  | [], _ => true
  | _ :: _, [] => false
  | p :: ps, c :: cs => p = c && startsWithL ps cs

/-- `bytes.HasSuffix(b, []byte("\r\n"))`. -/
def hasSuffixCRLF (b : List Char) : Bool :=
  match b.reverse with
  | '\n' :: '\r' :: _ => true
  | _ => false

/-- The observable outcome of one Go `Client.WriteMessage` call: the bytes
passed to `conn.Write` (if any), whether an error was logged instead, and the
tracked status afterwards. -/
structure WriteResult where
  wrote : Option (List Char) := none
  logged : Bool := false
  status : clientStatus
  deriving DecidableEq, Repr

/-- The source assignment Go `WriteMessage` performs on outgoing messages
that are not flagged to include their source (for length estimation). -/
def withEstimatedSource (m : Message) (st : clientState) : Message :=
  { m with source := Client.pfx st }

/-- Go `Client.WriteMessage` for a `*Message` argument, in source order: a
`nil` connection logs and returns; a message not flagged to include its
source gets the client's estimated prefix (for length estimation); a non-nil
marshal result error logs and returns without writing; the terminator is
appended if missing; an outgoing QUIT flips the status to `disconnecting`;
finally the bytes are written in one call. -/
def writeMessage (hasConn : Bool) (st : clientState) (m : Message) : WriteResult :=
  if ¬hasConn then { logged := true, status := st.status }
  else
    let m1 := if ¬m.includeSource then withEstimatedSource m st else m
    let r := m1.MarshalText
    if r.2.isSome then { logged := true, status := st.status }
    else
      let b1 := if hasSuffixCRLF r.1 then r.1 else r.1 ++ ['\r', '\n']
      let newStatus :=
        if startsWithL ("QUIT".toList) b1 then clientStatus.statusDisconnecting else st.status
      { wrote := some b1, status := newStatus }

/-! ## Middleware (Go handlers.go): the capability-negotiation completion -/

/-- A handler, observed through the messages it writes to the connection, in
order (Go `Handler.SpeakIRC` with a `MessageWriter`). -/
abbrev Handler := Message → List Message

/-- Go `capLSHandler`: always calls the next handler first; then, for a CAP
command with at least 3 params whose subcommand upper-cases to LS or NEW and
whose third param is not the continuation marker `*`, writes `CAP LIST` and
`CAP END`. -/
def capLSHandler (next : Handler) : Handler := fun m =>
  next m ++
  (if ¬(Command.is m.command CmdCap) then []
   else if m.params.length < 3 then []
   else
     let sub := goToUpper (Params.Get m.params 2)
     if sub = "LS" ∨ sub = "NEW" then
       if Params.Get m.params 3 ≠ "*" then [CapList, CapEnd] else []
     else [])

/-! ## Basic string/list facts used throughout -/

@[simp] theorem asString_toList (s : String) : s.toList.asString = s := rfl

@[simp] theorem asString_data (s : String) : s.data.asString = s := rfl

@[simp] theorem toList_asString (l : List Char) : (List.asString l).toList = l := rfl

@[simp] theorem utf8Len_nil : utf8Len [] = 0 := rfl

@[simp] theorem utf8Len_cons (c : Char) (l : List Char) :
    utf8Len (c :: l) = c.utf8Size + utf8Len l := by
  simp [utf8Len]

@[simp] theorem utf8Len_append (a b : List Char) :
    utf8Len (a ++ b) = utf8Len a + utf8Len b := by
  simp [utf8Len]

theorem utf8Len_replicate (n : Nat) (c : Char) :
    utf8Len (List.replicate n c) = n * c.utf8Size := by
  induction n with
  | zero => simp [utf8Len]
  | succ k ih => simp [List.replicate_succ, ih, Nat.succ_mul, Nat.add_comm]

/-! ## The tag-escape law (claim C9) -/

theorem escChar_semi : escChar ';' = ['\\', ':'] := rfl

theorem escChar_cr : escChar '\r' = ['\\', 'r'] := rfl

theorem escChar_lf : escChar '\n' = ['\\', 'n'] := rfl

theorem escChar_sp : escChar ' ' = ['\\', 's'] := rfl

theorem escChar_bs : escChar '\\' = ['\\', '\\'] := rfl

theorem escChar_other (c : Char) (h1 : ¬c = ';') (h2 : ¬c = '\r') (h3 : ¬c = '\n')
    (h4 : ¬c = ' ') (h5 : ¬c = '\\') : escChar c = [c] := by
  unfold escChar
  rw [if_neg h1, if_neg h2, if_neg h3, if_neg h4, if_neg h5]

theorem unescaperL_bs_colon (r : List Char) : unescaperL ('\\' :: ':' :: r) = ';' :: unescaperL r := rfl

theorem unescaperL_bs_r (r : List Char) : unescaperL ('\\' :: 'r' :: r) = '\r' :: unescaperL r := rfl

theorem unescaperL_bs_n (r : List Char) : unescaperL ('\\' :: 'n' :: r) = '\n' :: unescaperL r := rfl

theorem unescaperL_bs_s (r : List Char) : unescaperL ('\\' :: 's' :: r) = ' ' :: unescaperL r := rfl

theorem unescaperL_bs_bs (r : List Char) : unescaperL ('\\' :: '\\' :: r) = '\\' :: unescaperL r := rfl

theorem unescaperL_plain (c : Char) (h : ¬c = '\\') (r : List Char) :
    unescaperL (c :: r) = c :: unescaperL r := by
  rw [unescaperL.eq_def]
  simp only []
  rw [if_neg h]

theorem unescaperL_escaperL (l : List Char) : unescaperL (escaperL l) = l := by
  induction l with
  | nil => rfl
  | cons c r ih =>
    have hstep : escaperL (c :: r) = escChar c ++ escaperL r := by simp [escaperL]
    rw [hstep]
    by_cases h1 : c = ';'
    · subst h1; rw [escChar_semi, List.cons_append, List.cons_append, List.nil_append,
        unescaperL_bs_colon, ih]
    · by_cases h2 : c = '\r'
      · subst h2; rw [escChar_cr, List.cons_append, List.cons_append, List.nil_append,
          unescaperL_bs_r, ih]
      · by_cases h3 : c = '\n'
        · subst h3; rw [escChar_lf, List.cons_append, List.cons_append, List.nil_append,
            unescaperL_bs_n, ih]
        · by_cases h4 : c = ' '
          · subst h4; rw [escChar_sp, List.cons_append, List.cons_append, List.nil_append,
              unescaperL_bs_s, ih]
          · by_cases h5 : c = '\\'
            · subst h5; rw [escChar_bs, List.cons_append, List.cons_append, List.nil_append,
                unescaperL_bs_bs, ih]
            · rw [escChar_other c h1 h2 h3 h4 h5, List.cons_append, List.nil_append,
                unescaperL_plain c h5, ih]

theorem unescaperReplace_escaperReplace (v : String) :
    unescaperReplace (escaperReplace v) = v := by
  unfold unescaperReplace escaperReplace
  rw [toList_asString, unescaperL_escaperL, asString_toList]

/-- C9: for every string `v` — including strings containing the five special
characters `;`, CR, LF, space, `\` in any combination and runs of consecutive
backslashes — unescaping the escaped form yields `v` exactly:
`unescaper.Replace (escaper.Replace v) = v`, where the two replacers are the
tag-value substitution tables used at encode and decode time. -/
theorem c9_tag_escape_law (v : String) : unescaperReplace (escaperReplace v) = v :=
  unescaperReplace_escaperReplace v

/-! ## End-of-stream rewriting (claim C3) -/

theorem hasSuffixCRLF_append (x y : List Char) (h : hasSuffixCRLF y = true) :
    hasSuffixCRLF (x ++ y) = true := by
  unfold hasSuffixCRLF at *
  rw [List.reverse_append]
  revert h
  match hy : y.reverse with
  | [] => intro h; exact absurd h (by decide)
  | [c] =>
    intro h
    revert h
    split
    · next heq =>
      exact absurd heq (by intro hcon; cases hcon)
    · intro h; exact absurd h (by decide)
  | c1 :: c2 :: t =>
    intro h
    revert h
    split
    · next heq =>
      intro _
      cases heq
      simp
    · intro h; exact absurd h (by decide)

theorem marshalBuf_hasSuffixCRLF (m : Message) : hasSuffixCRLF (marshalBuf m) = true := by
  unfold marshalBuf
  apply hasSuffixCRLF_append
  decide

theorem marshalText_fst (m : Message) : (Message.MarshalText m).1 = marshalBuf m := rfl

/-- C3: if the run's terminal condition is end-of-stream (`io.EOF`) and the
client is in the `disconnecting` state, `ConnectAndRun` returns `nil`;
end-of-stream in any other state is returned as the error.  Moreover, writing
a QUIT message through `WriteMessage` (here: one whose marshalled form raises
no warning) is what moves the tracked status to `disconnecting`. -/
theorem c3_eof_after_quit_is_clean (st : clientStatus) (cs : clientState) (msg : String)
    (hst : st ≠ .statusDisconnecting)
    (hm : ((withEstimatedSource (Quit msg) cs).MarshalText).2 = none) :
    connectAndRunReturn (some .ioEOF) .statusDisconnecting = none ∧
    connectAndRunReturn (some .ioEOF) st = some .ioEOF ∧
    (writeMessage true cs (Quit msg)).status = .statusDisconnecting := by
  refine ⟨by simp [connectAndRunReturn], ?_, ?_⟩
  · unfold connectAndRunReturn
    rw [if_neg]
    simp [hst]
  · unfold writeMessage
    have hinc : (Quit msg).includeSource = false := rfl
    rw [hinc]
    simp only [Bool.not_false, Bool.not_true, Bool.false_eq_true, not_false_eq_true,
      if_true, ite_true, if_false, ite_false, Bool.true_eq_false]
    rw [hm]
    simp only [Option.isSome_none, Bool.false_eq_true, if_false, ite_false]
    rw [marshalText_fst, if_pos (marshalBuf_hasSuffixCRLF _)]
    have hq : startsWithL ("QUIT".toList) (marshalBuf (withEstimatedSource (Quit msg) cs)) = true := rfl
    rw [if_pos hq]
    simp

/-- Witness for C3 at a concrete state and message. -/
theorem c3_witness :
    connectAndRunReturn (some .ioEOF) .statusDisconnecting = none ∧
    connectAndRunReturn (some .ioEOF) .statusConnected = some .ioEOF ∧
    (writeMessage true {} (Quit "bye")).status = .statusDisconnecting :=
  c3_eof_after_quit_is_clean .statusConnected {} "bye" (by decide) (by decide)

/-! ## Re-entrancy (claim C4) -/

/-- A client that already holds a connection, with an unset `User` field and
a nonempty tracked state. -/
def c4client : Client :=
  { Nickname := "bot", User := "", Realname := "r", Addr := "irc.example.com:6697",
    hasDialFn := true, hasConn := true,
    state := { nick := "old", user := "ou", host := "oh", server := "os",
               status := .statusDisconnecting } }

/-- C4 counterexample: invoking `ConnectAndRun` on a client that already has
a connection does fail with the re-entrancy error, but only after mutating
observable state: `User` has been defaulted to "guest" and the tracked
connection state has been overwritten, so the failed invocation is not free
of side effects. -/
theorem c4_counterexample :
    connectAndRunSetup c4client =
      .errored
        { c4client with
          User := "guest"
          state := { nick := "bot", user := "guest", host := "", server := "irc.example.com",
                     status := .statusDisconnected } }
        "the client already has a connection" ∧
    ({ c4client with
       User := "guest"
       state := { nick := "bot", user := "guest", host := "", server := "irc.example.com",
                  status := .statusDisconnected } } : Client) ≠ c4client := by
  refine ⟨by decide, by decide⟩

/-- C4 amended: invoking `ConnectAndRun` while a connection is already active
(given the entry preconditions that avoid the panics) fails immediately with
the re-entrancy error and never dials, but the failed invocation has already
applied the identity-field defaulting (`User`, `Realname`, the default
dialler) and reset the tracked connection state; the connection handle itself
is unchanged. -/
theorem c4_amended (c : Client) (hc : c.hasConn = true) (hn : ¬c.Nickname = "")
    (hd : c.hasDialFn = true ∨ ¬c.Addr = "") :
    connectAndRunSetup c =
      .errored
        { c with
          User := if c.User = "" then "guest" else c.User,
          Realname := if c.Realname = "" then "..." else c.Realname,
          hasDialFn := true,
          state := { nick := c.Nickname,
                     user := if c.User = "" then "guest" else c.User,
                     host := "", server := addrHost c.Addr,
                     status := .statusDisconnected } }
        "the client already has a connection" := by
  unfold connectAndRunSetup
  rw [if_neg hn]
  by_cases hu : c.User = "" <;> by_cases hr : c.Realname = "" <;>
    rcases Bool.eq_false_or_eq_true c.hasDialFn with hdf | hdf <;>
    simp_all

/-- Witness for C4 amended, at a concrete already-connected client. -/
theorem c4_amended_witness :
    connectAndRunSetup { Nickname := "n", Addr := "a:1", hasDialFn := true, hasConn := true } =
      .errored
        { Nickname := "n", User := "guest", Realname := "...", Addr := "a:1",
          hasDialFn := true, hasConn := true,
          state := { nick := "n", user := "guest", server := "a" } }
        "the client already has a connection" := by
  have h := c4_amended
    { Nickname := "n", Addr := "a:1", hasDialFn := true, hasConn := true }
    (by decide) (by decide) (Or.inl (by decide))
  rw [h]
  decide

/-! ## Capability-negotiation completion (claim C8) -/

/-- A `CAP * LS` reply carrying only two parameters. -/
def capLSex : Message := { command := "CAP", params := ["*", "LS"] }

/-- C8 counterexample: for the message `CAP * LS` with only two parameters,
the claim's condition holds — the command is CAP, the subcommand is LS, and
the continuation marker is absent (the third parameter reads as "") — yet
`capLSHandler` writes nothing, because the code returns early whenever fewer
than 3 parameters are present. -/
theorem c8_counterexample :
    Command.is (capLSex.command) CmdCap = true ∧
    goToUpper (Params.Get capLSex.params 2) = "LS" ∧
    ¬Params.Get capLSex.params 3 = "*" ∧
    capLSHandler (fun _ => []) capLSex = [] := by
  refine ⟨by decide, by decide, by decide, by decide⟩

/-- C8 amended: for every incoming message, `capLSHandler` calls the next
(inner) handler before writing anything; then, exactly when the message is a
CAP command (case-insensitive) carrying at least three parameters, whose
subcommand upper-cases to LS or NEW, and whose continuation marker `*` is
absent from the third parameter, it writes the enabled-capability list
request (`CAP LIST`) followed by the end-of-negotiation command (`CAP END`),
in that order; for all other messages it writes nothing beyond the inner
handler's writes. -/
theorem c8_amended (next : Handler) (m : Message) :
    capLSHandler next m =
      next m ++
        (if Command.is m.command CmdCap = true ∧ 3 ≤ m.params.length ∧
            (goToUpper (Params.Get m.params 2) = "LS" ∨ goToUpper (Params.Get m.params 2) = "NEW") ∧
            ¬Params.Get m.params 3 = "*"
         then [CapList, CapEnd] else []) := by
  unfold capLSHandler
  congr 1
  by_cases h1 : Command.is m.command CmdCap = true
  · by_cases h2 : m.params.length < 3
    · have h2n : ¬3 ≤ m.params.length := by omega
      simp [h1, h2, h2n]
    · have h2y : 3 ≤ m.params.length := by omega
      by_cases h3 : goToUpper (Params.Get m.params 2) = "LS" ∨ goToUpper (Params.Get m.params 2) = "NEW"
      · by_cases h4 : Params.Get m.params 3 = "*"
        · simp [h1, h2, h2y, h3, h4]
        · simp [h1, h2, h2y, h3, h4]
      · simp [h1, h2, h3]
  · simp [h1]

/-! ## Soft-limit warnings (claims C6 and C2) -/

theorem marshalText_snd (m : Message) :
    (Message.MarshalText m).2 =
      (if marshalMsgLen m > 300 then
        some (warnTruncate ++ ": message length is " ++ toString (marshalMsgLen m) ++ " bytes")
      else
        match m.tags with
        | none => none
        | some _ =>
          if marshalTagBytes m > 8000 then
            some (warnTruncate ++ ": message tags were " ++ toString (marshalTagBytes m) ++ " bytes")
          else none) := rfl

/-- C6 (against the code): whenever both soft limits are exceeded — the tag
section exceeds 8000 bytes and the non-tag message exceeds 300 bytes — the
single warning returned by `MarshalText` carries only the message byte count;
the combined two-count warning the source assembles is immediately
overwritten (a dead store), so the tag byte count never reaches the caller. -/
theorem c6_both_exceeded_reports_only_length (m : Message)
    (h1 : 8000 < marshalTagBytes m) (h2 : 300 < marshalMsgLen m) :
    (m.MarshalText).2 =
      some (warnTruncate ++ ": message length is " ++ toString (marshalMsgLen m) ++ " bytes") := by
  rw [marshalText_snd, if_pos h2]

theorem escaperL_replicate (n : Nat) (c : Char) (h : escChar c = [c]) :
    escaperL (List.replicate n c) = List.replicate n c := by
  induction n with
  | zero => rfl
  | succ k ih =>
    rw [List.replicate_succ]
    have hstep : escaperL (c :: List.replicate k c) = escChar c ++ escaperL (List.replicate k c) := by
      simp [escaperL]
    rw [hstep, h, ih, List.singleton_append, ← List.replicate_succ]

/-- An 8100-byte tag value. -/
def bigTagVal : String := (List.replicate 8100 'a').asString

/-- A 350-byte parameter. -/
def bigParam : String := (List.replicate 350 'b').asString

/-- A message exceeding both soft limits: its tag section is 8105 bytes and
its non-tag portion is 358 bytes. -/
def c6msg : Message := { tags := some [("k", bigTagVal)], command := "PING", params := [bigParam] }

theorem c6msg_tagBytes : marshalTagBytes c6msg = 8105 := by
  have hval : (escaperReplace bigTagVal).toList = List.replicate 8100 'a' := by
    unfold escaperReplace bigTagVal
    rw [toList_asString, toList_asString, escaperL_replicate 8100 'a' (by decide)]
  have hsec : marshalTagSec c6msg = '@' :: (tagBody [("k", bigTagVal)] ++ [' ']) := rfl
  unfold marshalTagBytes
  rw [hsec]
  unfold tagBody
  rw [List.flatMap_cons, List.flatMap_nil, List.append_nil, hval]
  simp only [utf8Len_cons, utf8Len_append, utf8Len_replicate, utf8Len_nil]
  decide

theorem c6msg_msgLen : marshalMsgLen c6msg = 358 := by
  have ht : utf8Len (marshalTagSec c6msg) = 8105 := c6msg_tagBytes
  have hpfx : marshalPfxSec c6msg = [] := rfl
  have hpar : paramChars [bigParam] = ' ' :: ':' :: List.replicate 350 'b' := rfl
  have htb : marshalTagBytes c6msg = 8105 := c6msg_tagBytes
  unfold marshalMsgLen marshalBuf
  rw [htb, hpfx]
  have hparams : c6msg.params = [bigParam] := rfl
  rw [hparams, hpar]
  simp only [utf8Len_cons, utf8Len_append, utf8Len_replicate, utf8Len_nil, ht]
  decide

/-- Witness for C6: at the doubly-oversized message, both limits are
exceeded, and the warning returned names only the 358-byte message length
(in particular it does not contain the tag byte count). -/
theorem c6_witness :
    8000 < marshalTagBytes c6msg ∧ 300 < marshalMsgLen c6msg ∧
    (c6msg.MarshalText).2 =
      some (warnTruncate ++ ": message length is " ++ toString (marshalMsgLen c6msg) ++ " bytes") := by
  have h1 : (8000 : Nat) < marshalTagBytes c6msg := by rw [c6msg_tagBytes]; omega
  have h2 : (300 : Nat) < marshalMsgLen c6msg := by rw [c6msg_msgLen]; omega
  exact ⟨h1, h2, c6_both_exceeded_reports_only_length c6msg h1 h2⟩

/-- C2 (against the code): for a message whose encoding exceeds a soft length
ceiling, `Client.WriteMessage` does NOT transmit the encoded bytes — the
non-`nil` marshal result (the warning) makes it log and return before the
write, so nothing is written and the status is unchanged. -/
theorem c2_warning_stops_transmission (st : clientState) (m : Message)
    (hinc : m.includeSource = false)
    (hw : ((withEstimatedSource m st).MarshalText).2.isSome = true) :
    writeMessage true st m = { wrote := none, logged := true, status := st.status } := by
  unfold writeMessage
  rw [hinc]
  simp only [Bool.not_false, Bool.not_true, Bool.false_eq_true, not_false_eq_true,
    if_true, ite_true, if_false, ite_false, Bool.true_eq_false, not_true_eq_false]
  rw [if_pos hw]

/-- A 358-byte PING message (no tags), exceeding the 300-byte ceiling. -/
def c2msg : Message := NewMessage "PING" [bigParam]

theorem c2msg_msgLen : marshalMsgLen (withEstimatedSource c2msg {}) = 358 := by
  have hpfx : marshalPfxSec (withEstimatedSource c2msg {}) = [] := rfl
  have htag : marshalTagSec (withEstimatedSource c2msg {}) = [] := rfl
  have hpar : paramChars [bigParam] = ' ' :: ':' :: List.replicate 350 'b' := rfl
  have hparams : (withEstimatedSource c2msg {}).params = [bigParam] := rfl
  have hcmd : (withEstimatedSource c2msg {}).command.toList = "PING".toList := by decide
  unfold marshalMsgLen marshalBuf marshalTagBytes
  rw [hpfx, htag, hparams, hpar, hcmd]
  simp only [utf8Len_cons, utf8Len_append, utf8Len_replicate, utf8Len_nil]
  decide

/-- Witness for C2: the oversized PING marshals with a warning, and
`WriteMessage` drops it: nothing is written to the connection. -/
theorem c2_witness :
    ((withEstimatedSource c2msg {}).MarshalText).2.isSome = true ∧
    writeMessage true {} c2msg = { wrote := none, logged := true, status := .statusDisconnected } := by
  have hw : ((withEstimatedSource c2msg {}).MarshalText).2.isSome = true := by
    rw [marshalText_snd, if_pos (by rw [c2msg_msgLen]; omega)]
    rfl
  exact ⟨hw, c2_warning_stops_transmission {} c2msg rfl hw⟩

/-! ## Single-step unfolding lemmas for the scanner -/

@[simp] theorem dropSpaces_nil : dropSpaces [] = [] := rfl

@[simp] theorem dropSpaces_cons_space (r : List Char) : dropSpaces (' ' :: r) = dropSpaces r := by
  simp [dropSpaces, List.dropWhile_cons]

theorem dropSpaces_cons_of_ne (c : Char) (r : List Char) (h : ¬c = ' ') :
    dropSpaces (c :: r) = c :: r := by
  simp [dropSpaces, List.dropWhile_cons, h]

theorem lexStart_at (r : List Char) : lexStart ('@' :: r) = lexTagKey [] r := rfl

theorem lexStart_colon (r : List Char) : lexStart (':' :: r) = lexNickname [] r := rfl

theorem lexStart_of_ne (c : Char) (r : List Char) (h1 : ¬c = '@') (h2 : ¬c = ':') :
    lexStart (c :: r) = lexCommandA [] (c :: r) := by
  unfold lexStart
  simp only []
  rw [if_neg h1, if_neg h2]

theorem lexNickname_space (acc r : List Char) :
    lexNickname acc (' ' :: r) =
      .nickname acc.asString ::
        (if (dropSpaces r).isEmpty then [.error ("unexpected end of input; expected command")]
         else lexCommandA [] (dropSpaces r)) := by
  rw [lexNickname.eq_def]; simp

theorem lexNickname_dot (acc r : List Char) :
    lexNickname acc ('.' :: r) = lexHost (acc ++ ['.']) r := by
  rw [lexNickname.eq_def]; simp

theorem lexNickname_bang (acc r : List Char) :
    lexNickname acc ('!' :: r) = .nickname acc.asString :: lexUser [] r := by
  rw [lexNickname.eq_def]; simp

theorem lexUser_at (acc r : List Char) :
    lexUser acc ('@' :: r) = .user acc.asString :: lexHost [] r := by
  rw [lexUser.eq_def]; simp

theorem lexHost_space (acc r : List Char) :
    lexHost acc (' ' :: r) = .host acc.asString :: lexCommandA [] (dropSpaces r) := by
  rw [lexHost.eq_def]; simp

theorem lexCommandA_nil (acc : List Char) (h : ¬acc = []) :
    lexCommandA acc [] = [.command acc.asString, .eof] := by
  rw [lexCommandA.eq_def]
  simp [h]

theorem lexCommandA_space (acc r : List Char) (h : ¬acc = []) :
    lexCommandA acc (' ' :: r) = .command acc.asString :: lexParam (dropSpaces r) := by
  rw [lexCommandA.eq_def]
  simp [h]

theorem lexParam_colon (r : List Char) : lexParam (':' :: r) = [.param r.asString, .eof] := by
  rw [lexParam.eq_def]; simp

theorem lexParam_of_ne (c : Char) (r : List Char) (h : ¬c = ':') :
    lexParam (c :: r) = lexParamBody [] (c :: r) := by
  rw [lexParam.eq_def]
  simp only []
  rw [if_neg h]

theorem lexParamBody_space (acc r : List Char) :
    lexParamBody acc (' ' :: r) = .param acc.asString :: lexParam (dropSpaces r) := by
  rw [lexParamBody.eq_def]; simp

theorem lexTagKey_eqdelim (acc r : List Char) :
    lexTagKey acc ('=' :: r) = .tagKey acc.asString :: lexTagValue [] r := by
  rw [lexTagKey.eq_def]; simp

theorem lexTagKey_space (acc r : List Char) :
    lexTagKey acc (' ' :: r) = .tagKey acc.asString :: lexTagValue [] (' ' :: r) := by
  rw [lexTagKey.eq_def]; simp

theorem lexTagValue_semi (acc r : List Char) :
    lexTagValue acc (';' :: r) = .tagValue acc.asString :: lexTagEnd r := by
  rw [lexTagValue.eq_def]; simp

theorem lexTagValue_space (acc r : List Char) :
    lexTagValue acc (' ' :: r) = .tagValue acc.asString :: lexAfterTags (dropSpaces r) := by
  rw [lexTagValue.eq_def]; simp

theorem lexTagEnd_space (r : List Char) : lexTagEnd (' ' :: r) = lexAfterTags (dropSpaces r) := by
  rw [lexTagEnd.eq_def]
  simp

theorem lexTagEnd_of_ne (c : Char) (r : List Char) (h : ¬c = ' ') :
    lexTagEnd (c :: r) = lexTagKey [] (c :: r) := by
  rw [lexTagEnd.eq_def]
  simp only []
  rw [if_neg h]

theorem lexAfterTags_colon (r : List Char) : lexAfterTags (':' :: r) = lexNickname [] r := by
  rw [lexAfterTags.eq_def]; simp

theorem lexAfterTags_of_ne (c : Char) (r : List Char) (h : ¬c = ':') :
    lexAfterTags (c :: r) = lexCommandA [] (c :: r) := by
  rw [lexAfterTags.eq_def]
  simp only []
  rw [if_neg h]

/-! ## Run lemmas: scanning through a run of non-delimiter characters -/

theorem lexHost_run (w : List Char) (hw : ∀ c ∈ w, ¬c = ' ') (acc s : List Char) :
    lexHost acc (w ++ s) = lexHost (acc ++ w) s := by
  induction w generalizing acc with
  | nil => simp
  | cons c w' ih =>
    have hc : ¬c = ' ' := hw c (List.mem_cons_self c w')
    rw [List.cons_append, lexHost.eq_def]
    simp only []
    rw [if_neg hc, ih (fun c hc => hw c (List.mem_cons_of_mem _ hc))]
    simp

theorem lexUser_run (w : List Char) (hw : ∀ c ∈ w, ¬c = '@' ∧ ¬c = ' ') (acc s : List Char) :
    lexUser acc (w ++ s) = lexUser (acc ++ w) s := by
  induction w generalizing acc with
  | nil => simp
  | cons c w' ih =>
    have hc := hw c (List.mem_cons_self c w')
    rw [List.cons_append, lexUser.eq_def]
    simp only []
    rw [if_neg hc.1, if_neg hc.2, ih (fun c hc => hw c (List.mem_cons_of_mem _ hc))]
    simp

theorem lexNickname_run (w : List Char) (hw : ∀ c ∈ w, ¬c = ' ' ∧ ¬c = '.' ∧ ¬c = '!')
    (acc s : List Char) :
    lexNickname acc (w ++ s) = lexNickname (acc ++ w) s := by
  induction w generalizing acc with
  | nil => simp
  | cons c w' ih =>
    have hc := hw c (List.mem_cons_self c w')
    rw [List.cons_append, lexNickname.eq_def]
    simp only []
    rw [if_neg hc.1, if_neg hc.2.1, if_neg hc.2.2, ih (fun c hc => hw c (List.mem_cons_of_mem _ hc))]
    simp

theorem lexCommandA_run (w : List Char) (hw : ∀ c ∈ w, ¬c = ' ') (acc s : List Char) :
    lexCommandA acc (w ++ s) = lexCommandA (acc ++ w) s := by
  induction w generalizing acc with
  | nil => simp
  | cons c w' ih =>
    have hc : ¬c = ' ' := hw c (List.mem_cons_self c w')
    rw [List.cons_append, lexCommandA.eq_def]
    simp only []
    rw [if_neg hc, ih (fun c hc => hw c (List.mem_cons_of_mem _ hc))]
    simp

theorem lexParamBody_run (w : List Char) (hw : ∀ c ∈ w, ¬c = ' ') (acc s : List Char) :
    lexParamBody acc (w ++ s) = lexParamBody (acc ++ w) s := by
  induction w generalizing acc with
  | nil => simp
  | cons c w' ih =>
    have hc : ¬c = ' ' := hw c (List.mem_cons_self c w')
    rw [List.cons_append, lexParamBody.eq_def]
    simp only []
    rw [if_neg hc, ih (fun c hc => hw c (List.mem_cons_of_mem _ hc))]
    simp

theorem validTagChar_ne (c : Char) (h : invalidTagNameChar c = false) :
    ¬c = '=' ∧ ¬c = ';' ∧ ¬c = ' ' := by
  refine ⟨?_, ?_, ?_⟩ <;> intro he <;> subst he <;> exact absurd h (by decide)

theorem lexTagKey_run (w : List Char) (hw : ∀ c ∈ w, invalidTagNameChar c = false)
    (acc s : List Char) :
    lexTagKey acc (w ++ s) = lexTagKey (acc ++ w) s := by
  induction w generalizing acc with
  | nil => simp
  | cons c w' ih =>
    have hv := hw c (List.mem_cons_self c w')
    have hc := validTagChar_ne c hv
    rw [List.cons_append, lexTagKey.eq_def]
    simp only []
    rw [if_neg hc.1, if_neg (by simp [hc.2.1, hc.2.2]), if_neg (by simp [hv]),
      ih (fun c hc => hw c (List.mem_cons_of_mem _ hc))]
    simp

theorem lexTagValue_run (w : List Char) (hw : ∀ c ∈ w, ¬c = ';' ∧ ¬c = ' ')
    (acc s : List Char) :
    lexTagValue acc (w ++ s) = lexTagValue (acc ++ w) s := by
  induction w generalizing acc with
  | nil => simp
  | cons c w' ih =>
    have hc := hw c (List.mem_cons_self c w')
    rw [List.cons_append, lexTagValue.eq_def]
    simp only []
    rw [if_neg hc.1, if_neg hc.2, ih (fun c hc => hw c (List.mem_cons_of_mem _ hc))]
    simp

/-! ## Prefix splitting (claim C5) -/

theorem lex_eq (t : List Char) : lex t = lexStart t := rfl

/-- Scanning a full-address source segment `nick!user@host ` (with the
nickname free of space/`.`/`!`, the user free of `@`/space, and the host free
of space) emits the nickname, user, and host tokens. -/
theorem lexNickname_fulladdr (n u h rest : List Char)
    (hn : ∀ c ∈ n, ¬c = ' ' ∧ ¬c = '.' ∧ ¬c = '!')
    (hu : ∀ c ∈ u, ¬c = '@' ∧ ¬c = ' ')
    (hh : ∀ c ∈ h, ¬c = ' ') :
    lexNickname [] (n ++ '!' :: (u ++ '@' :: (h ++ ' ' :: rest))) =
      .nickname n.asString :: .user u.asString :: .host h.asString ::
        lexCommandA [] (dropSpaces rest) := by
  rw [lexNickname_run n hn, lexNickname_bang, lexUser_run u hu, lexUser_at,
    lexHost_run h hh, lexHost_space]
  simp

/-- Scanning a source segment in which a `.` occurs before any `!` and before
the terminating space emits the entire segment as a single host token. -/
theorem lexNickname_hostform (a b rest : List Char)
    (ha : ∀ c ∈ a, ¬c = ' ' ∧ ¬c = '.' ∧ ¬c = '!')
    (hb : ∀ c ∈ b, ¬c = ' ') :
    lexNickname [] (a ++ '.' :: (b ++ ' ' :: rest)) =
      .host (a ++ '.' :: b).asString :: lexCommandA [] (dropSpaces rest) := by
  rw [lexNickname_run a ha, lexNickname_dot, lexHost_run b hb, lexHost_space]
  simp

theorem lexCommandA_word (w : List Char) (hw : ∀ c ∈ w, ¬c = ' ') (hne : ¬w = []) :
    lexCommandA [] w = [.command w.asString, .eof] := by
  have hrun := lexCommandA_run w hw [] []
  rw [List.append_nil] at hrun
  rw [hrun, lexCommandA_nil _ (by simpa using hne)]
  simp

/-- C5 counterexample: in the source segment `a.b!u@h`, a `!` occurs before
the first space, yet the tokenizer does not split the segment into
nickname/user/host — because the `.` comes first, the whole segment is
emitted as one host token. -/
theorem c5_counterexample :
    lex (":a.b!u@h PING".toList) = [.host "a.b!u@h", .command "PING", .eof] ∧
    ¬lex (":a.b!u@h PING".toList) =
      [.nickname "a.b", .user "u", .host "h", .command "PING", .eof] := by
  have h1 : lex (":a.b!u@h PING".toList) = [.host "a.b!u@h", .command "PING", .eof] := by
    rw [show ":a.b!u@h PING".toList =
      ':' :: (['a'] ++ '.' :: (['b', '!', 'u', '@', 'h'] ++ ' ' :: ['P', 'I', 'N', 'G'])) from rfl]
    rw [lex_eq, lexStart_colon,
      lexNickname_hostform ['a'] ['b', '!', 'u', '@', 'h'] ['P', 'I', 'N', 'G']
        (by decide) (by decide)]
    rw [show dropSpaces ['P', 'I', 'N', 'G'] = ['P', 'I', 'N', 'G'] from by decide]
    rw [lexCommandA_word ['P', 'I', 'N', 'G'] (by decide) (by decide)]
    decide
  exact ⟨h1, by rw [h1]; decide⟩

/-- C5 amended: for every source segment in which a `!` occurs before the
first space AND before any `.`, the tokenizer splits it as nickname
(`!`-preceding part), user (between `!` and the first `@`), and host (after
`@` up to the space); whereas whenever a `.` occurs before the first space
and before any `!` — even if a `!`/`@` structure follows — the entire
segment is emitted as a host. -/
theorem c5_amended (n u h a b rest : List Char)
    (hn : ∀ c ∈ n, ¬c = ' ' ∧ ¬c = '.' ∧ ¬c = '!')
    (hu : ∀ c ∈ u, ¬c = '@' ∧ ¬c = ' ')
    (hh : ∀ c ∈ h, ¬c = ' ')
    (ha : ∀ c ∈ a, ¬c = ' ' ∧ ¬c = '.' ∧ ¬c = '!')
    (hb : ∀ c ∈ b, ¬c = ' ') :
    lex (':' :: (n ++ '!' :: (u ++ '@' :: (h ++ ' ' :: rest)))) =
      .nickname n.asString :: .user u.asString :: .host h.asString ::
        lexCommandA [] (dropSpaces rest) ∧
    lex (':' :: (a ++ '.' :: (b ++ ' ' :: rest))) =
      .host (a ++ '.' :: b).asString :: lexCommandA [] (dropSpaces rest) := by
  constructor
  · rw [lex_eq, lexStart_colon, lexNickname_fulladdr n u h rest hn hu hh]
  · rw [lex_eq, lexStart_colon, lexNickname_hostform a b rest ha hb]

/-- Witness for C5 at a concrete full-address line and a concrete
server-host line. -/
theorem c5_amended_witness :
    lex (":WiZ!jto@tol.fi PING".toList) =
      [.nickname "WiZ", .user "jto", .host "tol.fi", .command "PING", .eof] ∧
    lex (":tol.fi PING".toList) = [.host "tol.fi", .command "PING", .eof] := by
  have h := c5_amended ("WiZ".toList) ("jto".toList) ("tol.fi".toList)
    ("tol".toList) ("fi".toList) ("PING".toList)
    (by decide) (by decide) (by decide) (by decide) (by decide)
  constructor
  · rw [show ":WiZ!jto@tol.fi PING".toList =
      ':' :: ("WiZ".toList ++ '!' :: ("jto".toList ++ '@' :: ("tol.fi".toList ++ ' ' :: "PING".toList))) from rfl]
    rw [h.1]
    rw [show dropSpaces ("PING".toList) = "PING".toList from by decide]
    rw [lexCommandA_word ("PING".toList) (by decide) (by decide)]
    decide
  · rw [show ":tol.fi PING".toList =
      ':' :: ("tol".toList ++ '.' :: ("fi".toList ++ ' ' :: "PING".toList)) from rfl]
    rw [h.2]
    rw [show dropSpaces ("PING".toList) = "PING".toList from by decide]
    rw [lexCommandA_word ("PING".toList) (by decide) (by decide)]
    decide

/-! ## Trailing-delimiter behaviour (claim C10): infrastructure -/

/-- Is this item a scan error? -/
def Item.isErr : Item → Bool
  | .error _ => true
  | _ => false

/-- No error item in the stream. -/
def noErrB (l : List Item) : Bool := l.all (fun i => !i.isErr)

@[simp] theorem noErrB_nil : noErrB [] = true := rfl

theorem dropSpaces_head_ne_space (r : List Char) : ¬(dropSpaces r).head? = some ' ' := by
  induction r with
  | nil => simp [dropSpaces]
  | cons c r' ih =>
    by_cases hc : c = ' '
    · subst hc; rw [dropSpaces_cons_space]; exact ih
    · rw [dropSpaces_cons_of_ne c r' hc]; simpa using hc

theorem runItems_eof (m : Message) (rest : List Item) : runItems m (.eof :: rest) = .ok m := rfl

theorem runItems_tagKey (m : Message) (k : String) (v : Item) (rest2 : List Item) :
    runItems m (.tagKey k :: v :: rest2) =
      runItems
        (if k = "" then m
         else { m with tags := Tags.Set m.tags k (unescaperReplace (Item.val v)) }) rest2 := rfl

theorem runItems_nickname (m : Message) (v : String) (rest : List Item) :
    runItems m (.nickname v :: rest) = runItems { m with source := { m.source with nick := v } } rest := rfl

theorem runItems_user (m : Message) (v : String) (rest : List Item) :
    runItems m (.user v :: rest) = runItems { m with source := { m.source with user := v } } rest := rfl

theorem runItems_host (m : Message) (v : String) (rest : List Item) :
    runItems m (.host v :: rest) = runItems { m with source := { m.source with host := v } } rest := rfl

theorem runItems_command (m : Message) (v : String) (rest : List Item) :
    runItems m (.command v :: rest) = runItems { m with command := v } rest := rfl

theorem runItems_param (m : Message) (v : String) (rest : List Item) :
    runItems m (.param v :: rest) = runItems { m with params := m.params ++ [v] } rest := rfl

theorem runItems_tagValue (m : Message) (v : String) (rest : List Item) :
    runItems m (.tagValue v :: rest) = runItems m rest := rfl

/-- The token consumer reads and writes only the four decoded fields; the
include-source marshalling flag is carried through untouched. -/
theorem runItems_includeSource : ∀ (n : Nat) (l : List Item), l.length ≤ n →
    ∀ (m : Message) (b : Bool),
    runItems { m with includeSource := b } l =
      Except.map (fun r => { r with includeSource := b }) (runItems m l) := by
  intro n
  induction n with
  | zero =>
    intro l hl m b
    have hnil : l = [] := List.length_eq_zero.1 (Nat.le_zero.1 hl)
    subst hnil
    rfl
  | succ n ih =>
    intro l hl m b
    cases l with
    | nil => rfl
    | cons i t =>
      have htl : t.length ≤ n := by
        simp only [List.length_cons] at hl
        omega
      cases i with
      | eof => rfl
      | error e => rfl
      | tagKey k =>
        cases t with
        | nil => rfl
        | cons v t2 =>
          have ht2 : t2.length ≤ n := by
            simp only [List.length_cons] at htl ⊢
            omega
          rw [runItems_tagKey, runItems_tagKey]
          by_cases hk : k = ""
          · rw [if_pos hk, if_pos hk]
            exact ih t2 ht2 m b
          · rw [if_neg hk, if_neg hk]
            exact ih t2 ht2 { m with tags := Tags.Set m.tags k (unescaperReplace (Item.val v)) } b
      | nickname v =>
        rw [runItems_nickname, runItems_nickname]
        exact ih t htl { m with source := { m.source with nick := v } } b
      | user v =>
        rw [runItems_user, runItems_user]
        exact ih t htl { m with source := { m.source with user := v } } b
      | host v =>
        rw [runItems_host, runItems_host]
        exact ih t htl { m with source := { m.source with host := v } } b
      | command v =>
        rw [runItems_command, runItems_command]
        exact ih t htl { m with command := v } b
      | param v =>
        rw [runItems_param, runItems_param]
        exact ih t htl { m with params := m.params ++ [v] } b
      | tagValue v =>
        rw [runItems_tagValue, runItems_tagValue]
        exact ih t htl _ b

/-- C7: decoding a line into a previously populated message clears all prior
decoded field values (tags, source, command, params) before applying the new
ones: the result equals a decode into a pristine zero message — every prior
tag pair, source field, command and parameter is gone — with only the
transient include-source marshalling flag carried over from the target. -/
theorem c7_redecode_clears_prior_fields (m : Message) (t : List Char) :
    Message.UnmarshalText m t =
      Except.map (fun r => { r with includeSource := m.includeSource })
        (Message.UnmarshalText ({} : Message) t) := by
  unfold Message.UnmarshalText
  have hreset : ({ m with source := {}, command := "", params := [], tags := none } : Message) =
      { ({ ({} : Message) with source := {}, command := "", params := [], tags := none }) with
        includeSource := m.includeSource } := rfl
  rw [hreset]
  exact runItems_includeSource (lex t).length (lex t) (le_refl _) _ m.includeSource

/-! ## The round-trip law (claim C1): well-formedness and scan composition -/

/-- A nickname scannable by `lexNickname` without being cut short. -/
def nickOK (n : String) : Prop := ∀ c ∈ n.toList, ¬c = ' ' ∧ ¬c = '.' ∧ ¬c = '!'

/-- A user field scannable by `lexUser` up to the `@`. -/
def userOK (u : String) : Prop := ∀ c ∈ u.toList, ¬c = '@' ∧ ¬c = ' '

/-- A host field scannable by `lexHost` up to the space. -/
def hostChars (h : String) : Prop := ∀ c ∈ h.toList, ¬c = ' '

/-- A host that re-parses as a server prefix: a `.` occurs before any `!` or
space, and no space occurs at all. -/
def serverHostOK (h : String) : Prop :=
  ∃ a b, h.toList = a ++ '.' :: b ∧ (∀ c ∈ a, ¬c = ' ' ∧ ¬c = '.' ∧ ¬c = '!') ∧
    (∀ c ∈ b, ¬c = ' ')

/-- The source triples whose `Prefix.String` rendering re-parses to the same
triple: empty; server form (nick and user empty, host with a leading-dot
structure); bare nickname (user and host empty); or full address form
(nonempty user). -/
def pfxOK (p : Pfx) : Prop :=
  (p.nick = "" ∧ p.user = "" ∧ p.host = "") ∨
  (p.nick = "" ∧ p.user = "" ∧ ¬p.host = "" ∧ serverHostOK p.host) ∨
  (¬p.nick = "" ∧ p.user = "" ∧ p.host = "" ∧ nickOK p.nick) ∨
  (¬p.user = "" ∧ nickOK p.nick ∧ userOK p.user ∧ hostChars p.host)

/-- Legal tag section: every key nonempty and made of legal tag-key
characters, keys distinct (they came from a Go map). -/
def tagsWF : Tags → Prop
  | none => True
  | some ts =>
    (∀ kv ∈ ts, ¬kv.1 = "" ∧ ∀ c ∈ kv.1.toList, invalidTagNameChar c = false) ∧
    (ts.map Prod.fst).Nodup

/-- A command that re-parses as itself: nonempty, no space, and not starting
with the tag or source sigils. -/
def cmdOK (c : Command) : Prop :=
  ¬c = "" ∧ (∀ ch ∈ c.toList, ¬ch = ' ') ∧
  ¬c.toList.head? = some '@' ∧ ¬c.toList.head? = some ':'

/-- Parameters that re-parse as themselves: every parameter except the last
is nonempty, has no space and no leading `:` (the last one is written behind
the trailing marker and may contain anything); and, as the claim requires, no
parameter contains a raw CR or LF. -/
def paramsWF (ps : Params) : Prop :=
  (∀ p ∈ ps.dropLast, ¬p = "" ∧ (∀ c ∈ p.toList, ¬c = ' ') ∧ ¬p.toList.head? = some ':') ∧
  (∀ p ∈ ps, ∀ c ∈ p.toList, ¬c = '\r' ∧ ¬c = '\n')

/-- A message whose encoding decodes back to itself. -/
def wellFormed (m : Message) : Prop :=
  tagsWF m.tags ∧ pfxOK m.source ∧ cmdOK m.command ∧ paramsWF m.params

/-- The tag tokens the scanner emits for the tag section of `ts`. -/
def tagItems (ts : List (String × String)) : List Item :=
  ts.flatMap (fun kv => [.tagKey kv.1, .tagValue (escaperReplace kv.2)])

/-- The wire text of the middle and trailing parameters (after the first
delimiter space). -/
def pTail : List String → List Char
  | [] => []
  | [p] => ':' :: p.toList
  | p :: rest => p.toList ++ ' ' :: pTail rest

theorem paramChars_eq (ps : List String) (h : ¬ps = []) : paramChars ps = ' ' :: pTail ps := by
  induction ps with
  | nil => exact absurd rfl h
  | cons p rest ih =>
    cases rest with
    | nil => rfl
    | cons q rest2 =>
      rw [show paramChars (p :: q :: rest2) = ' ' :: (p.toList ++ paramChars (q :: rest2)) from rfl,
        ih (by simp),
        show pTail (p :: q :: rest2) = p.toList ++ ' ' :: pTail (q :: rest2) from rfl]

theorem stripCRLF_append (x : List Char) : stripCRLF (x ++ ['\r', '\n']) = x := by
  unfold stripCRLF
  rw [List.reverse_append]
  simp

theorem dropSpaces_of_head_ne (t : List Char) (h : ¬t.head? = some ' ') : dropSpaces t = t := by
  cases t with
  | nil => rfl
  | cons c r => exact dropSpaces_cons_of_ne c r (by simpa using h)

theorem toList_eq_nil (p : String) (h : p.toList = []) : p = "" := by
  rw [← asString_toList p, h]
  rfl

theorem pTail_head_ne_space (ps : List String)
    (hmid : ∀ p ∈ ps.dropLast, ¬p = "" ∧ (∀ c ∈ p.toList, ¬c = ' ') ∧ ¬p.toList.head? = some ':')
    (h : ¬ps = []) : ¬(pTail ps).head? = some ' ' := by
  cases ps with
  | nil => exact absurd rfl h
  | cons p rest =>
    cases rest with
    | nil => simp [pTail]
    | cons q rest2 =>
      have hp := hmid p (by
        rw [show (p :: q :: rest2).dropLast = p :: (q :: rest2).dropLast from rfl]
        simp)
      cases hpt : p.toList with
      | nil => exact absurd (toList_eq_nil p hpt) hp.1
      | cons c pr =>
        rw [show pTail (p :: q :: rest2) = p.toList ++ ' ' :: pTail (q :: rest2) from rfl, hpt]
        have hc : ¬c = ' ' := hp.2.1 c (by rw [hpt]; simp)
        simpa using hc

theorem scanParams : ∀ ps, ¬ps = [] →
    (∀ p ∈ ps.dropLast, ¬p = "" ∧ (∀ c ∈ p.toList, ¬c = ' ') ∧ ¬p.toList.head? = some ':') →
    lexParam (pTail ps) = ps.map (fun p => Item.param p) ++ [.eof] := by
  intro ps
  induction ps with
  | nil => intro h; exact absurd rfl h
  | cons p rest ih =>
    intro _ hmid
    cases rest with
    | nil =>
      rw [show pTail [p] = ':' :: p.toList from rfl, lexParam_colon]
      simp
    | cons q rest2 =>
      have hp := hmid p (by
        rw [show (p :: q :: rest2).dropLast = p :: (q :: rest2).dropLast from rfl]
        simp)
      obtain ⟨c, pr, hpl⟩ : ∃ c pr, p.toList = c :: pr := by
        cases hpt : p.toList with
        | nil => exact absurd (toList_eq_nil p hpt) hp.1
        | cons c pr => exact ⟨c, pr, rfl⟩
      have hc : ¬c = ':' := by
        have := hp.2.2
        rw [hpl] at this
        simpa using this
      have hmid2 : ∀ r ∈ (q :: rest2).dropLast, ¬r = "" ∧ (∀ c ∈ r.toList, ¬c = ' ') ∧
          ¬r.toList.head? = some ':' := by
        intro r hr
        exact hmid r (by
          rw [show (p :: q :: rest2).dropLast = p :: (q :: rest2).dropLast from rfl]
          simp [hr])
      rw [show pTail (p :: q :: rest2) = p.toList ++ ' ' :: pTail (q :: rest2) from rfl, hpl,
        List.cons_append, lexParam_of_ne c _ hc,
        show (c :: (pr ++ ' ' :: pTail (q :: rest2)) : List Char) =
          (c :: pr) ++ (' ' :: pTail (q :: rest2)) from by simp,
        lexParamBody_run (c :: pr) (by rw [← hpl]; exact hp.2.1) [] _,
        lexParamBody_space,
        dropSpaces_of_head_ne _ (pTail_head_ne_space (q :: rest2) hmid2 (by simp)),
        ih (by simp) hmid2]
      rw [List.nil_append, ← hpl, asString_toList]
      rfl

theorem scanCmdParams (cmd : List Char) (ps : List String) (h1 : ¬cmd = [])
    (h2 : ∀ c ∈ cmd, ¬c = ' ')
    (hmid : ∀ p ∈ ps.dropLast, ¬p = "" ∧ (∀ c ∈ p.toList, ¬c = ' ') ∧ ¬p.toList.head? = some ':') :
    lexCommandA [] (cmd ++ paramChars ps) =
      .command cmd.asString :: (ps.map (fun p => Item.param p) ++ [.eof]) := by
  by_cases hps : ps = []
  · subst hps
    rw [show paramChars [] = [] from rfl, List.append_nil, lexCommandA_word cmd h2 h1]
    rfl
  · rw [paramChars_eq ps hps, lexCommandA_run cmd h2 [] _,
      lexCommandA_space _ _ (by simpa using h1),
      dropSpaces_of_head_ne _ (pTail_head_ne_space ps hmid hps),
      scanParams ps hps hmid]
    simp

theorem escChar_no_delims (x : Char) : ∀ c ∈ escChar x, ¬c = ';' ∧ ¬c = ' ' := by
  unfold escChar
  split_ifs with h1 h2 h3 h4 h5 <;> intro c hc <;> simp only [List.mem_cons,
    List.mem_singleton, List.not_mem_nil, or_false] at hc
  · rcases hc with rfl | rfl <;> exact ⟨by decide, by decide⟩
  · rcases hc with rfl | rfl <;> exact ⟨by decide, by decide⟩
  · rcases hc with rfl | rfl <;> exact ⟨by decide, by decide⟩
  · rcases hc with rfl | rfl <;> exact ⟨by decide, by decide⟩
  · rcases hc with rfl | rfl <;> exact ⟨by decide, by decide⟩
  · subst hc
    exact ⟨h1, h4⟩

theorem escaperReplace_no_delims (v : String) :
    ∀ c ∈ (escaperReplace v).toList, ¬c = ';' ∧ ¬c = ' ' := by
  unfold escaperReplace
  rw [toList_asString]
  unfold escaperL
  intro c hc
  rw [List.mem_flatMap] at hc
  obtain ⟨x, _, hcx⟩ := hc
  exact escChar_no_delims x c hcx

theorem scanTags : ∀ ts rest, ¬ts = [] →
    (∀ kv ∈ ts, ∀ c ∈ kv.1.toList, invalidTagNameChar c = false) →
    lexTagKey [] (tagBody ts ++ ' ' :: rest) = tagItems ts ++ lexAfterTags (dropSpaces rest) := by
  intro ts
  induction ts with
  | nil => intro rest h; exact absurd rfl h
  | cons kv ts' ih =>
    intro rest _ hkeys
    have hkv := hkeys kv (by simp)
    have hbody : tagBody (kv :: ts') ++ ' ' :: rest =
        kv.1.toList ++ '=' :: ((escaperReplace kv.2).toList ++ ';' :: (tagBody ts' ++ ' ' :: rest)) := by
      rw [show tagBody (kv :: ts') =
        (kv.1.toList ++ '=' :: ((escaperReplace kv.2).toList ++ [';'])) ++ tagBody ts' from by
          simp [tagBody]]
      simp
    rw [hbody, lexTagKey_run kv.1.toList hkv [] _, lexTagKey_eqdelim,
      lexTagValue_run (escaperReplace kv.2).toList (escaperReplace_no_delims kv.2) [] _,
      lexTagValue_semi]
    cases hts' : ts' with
    | nil =>
      rw [show tagBody [] = [] from rfl]
      simp only [List.nil_append]
      rw [lexTagEnd_space]
      simp [tagItems]
    | cons kv2 ts'' =>
      have hstep : lexTagEnd (tagBody (kv2 :: ts'') ++ ' ' :: rest) =
          lexTagKey [] (tagBody (kv2 :: ts'') ++ ' ' :: rest) := by
        have hk2 := hkeys kv2 (by simp [hts'])
        cases hk2l : kv2.1.toList with
        | nil =>
          rw [show tagBody (kv2 :: ts'') =
            (kv2.1.toList ++ '=' :: ((escaperReplace kv2.2).toList ++ [';'])) ++ tagBody ts'' from by
              simp [tagBody], hk2l]
          rw [show (([] ++ '=' :: ((escaperReplace kv2.2).toList ++ [';'])) ++ tagBody ts'') ++
              ' ' :: rest = '=' :: (((escaperReplace kv2.2).toList ++ [';']) ++ tagBody ts'' ++
              ' ' :: rest) from by simp]
          exact lexTagEnd_of_ne '=' _ (by decide)
        | cons c2 t2 =>
          have hc2 : ¬c2 = ' ' :=
            (validTagChar_ne c2 (hk2 c2 (by rw [hk2l]; simp))).2.2
          rw [show tagBody (kv2 :: ts'') =
            (kv2.1.toList ++ '=' :: ((escaperReplace kv2.2).toList ++ [';'])) ++ tagBody ts'' from by
              simp [tagBody], hk2l]
          rw [show ((c2 :: t2 ++ '=' :: ((escaperReplace kv2.2).toList ++ [';'])) ++ tagBody ts'') ++
              ' ' :: rest = c2 :: ((t2 ++ '=' :: ((escaperReplace kv2.2).toList ++ [';'])) ++
              tagBody ts'' ++ ' ' :: rest) from by simp]
          rw [lexTagEnd_of_ne c2 _ hc2]
      rw [hts'] at ih
      rw [hstep, ih rest (by simp) (fun kv3 h => hkeys kv3 (by rw [hts']; simp [h]))]
      simp [tagItems]

/-- The items the scanner emits for the marshalled source section of a
well-formed source `p` (empty, host-only, nickname-only, or full address). -/
def pfxItems (p : Pfx) : List Item :=
  if p.nick = "" ∧ p.user = "" ∧ p.host = "" then []
  else if p.nick = "" ∧ p.user = "" then [.host p.host]
  else if p.user = "" then [.nickname p.nick]
  else [.nickname p.nick, .user p.user, .host p.host]

/-- The characters `MarshalText` writes for the source section when source
marshalling is enabled: nothing for the zero source, otherwise `:`, the
rendered source, and a space. -/
def pfxChars (p : Pfx) : List Char :=
  if p = ({} : Pfx) then [] else ':' :: ((Pfx.str p).toList ++ [' '])

theorem Pfx.ext3 {p q : Pfx} (hn : p.nick = q.nick) (hu : p.user = q.user)
    (hh : p.host = q.host) : p = q := by
  obtain ⟨a, b, c⟩ := p
  obtain ⟨d, e, f⟩ := q
  cases show a = d from hn
  cases show b = e from hu
  cases show c = f from hh
  rfl

theorem Pfx.eq_empty_iff (p : Pfx) :
    p = ({} : Pfx) ↔ p.nick = "" ∧ p.user = "" ∧ p.host = "" := by
  constructor
  · intro h
    rw [h]
    exact ⟨rfl, rfl, rfl⟩
  · intro ⟨h1, h2, h3⟩
    exact Pfx.ext3 h1 h2 h3

theorem marshalPfxSec_inc (m : Message) (h : m.includeSource = true) :
    marshalPfxSec m = pfxChars m.source := by
  rw [marshalPfxSec, pfxChars]
  by_cases hs : m.source = ({} : Pfx)
  · rw [if_neg (fun hc => hc.2 hs), if_pos hs]
  · rw [if_pos ⟨h, hs⟩, if_neg hs]

theorem lexStart_eq_lexAfterTags (c : Char) (r : List Char) (h : ¬c = '@') :
    lexStart (c :: r) = lexAfterTags (c :: r) := by
  by_cases hc : c = ':'
  · subst hc
    rw [lexStart_colon, lexAfterTags_colon]
  · rw [lexStart_of_ne c r h hc, lexAfterTags_of_ne c r hc]

theorem lexNickname_nickonly (n rest : List Char)
    (hn : ∀ c ∈ n, ¬c = ' ' ∧ ¬c = '.' ∧ ¬c = '!')
    (hne : ¬rest = []) (hhead : ¬rest.head? = some ' ') :
    lexNickname [] (n ++ ' ' :: rest) = .nickname n.asString :: lexCommandA [] rest := by
  cases rest with
  | nil => exact absurd rfl hne
  | cons c r =>
    have hc : ¬c = ' ' := by simpa using hhead
    rw [lexNickname_run n hn [] _, lexNickname_space, dropSpaces_cons_of_ne c r hc]
    simp

/-- Scanning the marshalled source section of a well-formed source emits
exactly its `pfxItems` and continues at the command. -/
theorem scanPfx (p : Pfx) (hp : pfxOK p) (rest : List Char) (hne : ¬rest = [])
    (hh1 : ¬rest.head? = some ' ') (hh2 : ¬rest.head? = some ':') :
    lexAfterTags (pfxChars p ++ rest) = pfxItems p ++ lexAfterTags rest := by
  obtain ⟨c, r, hrest⟩ : ∃ c r, rest = c :: r := by
    cases rest with
    | nil => exact absurd rfl hne
    | cons c r => exact ⟨c, r, rfl⟩
  have hcs : ¬c = ' ' := by rw [hrest] at hh1; simpa using hh1
  have hcc : ¬c = ':' := by rw [hrest] at hh2; simpa using hh2
  have hafter : lexAfterTags rest = lexCommandA [] rest := by
    rw [hrest]
    exact lexAfterTags_of_ne c r hcc
  have hdrop : dropSpaces rest = rest := by
    rw [hrest]
    exact dropSpaces_cons_of_ne c r hcs
  rcases hp with ⟨h1, h2, h3⟩ | ⟨h1, h2, h3, h4⟩ | ⟨h1, h2, h3, h4⟩ | ⟨h1, h2, h3, h4⟩
  · rw [pfxChars, if_pos ((Pfx.eq_empty_iff p).mpr ⟨h1, h2, h3⟩),
      pfxItems, if_pos ⟨h1, h2, h3⟩]
    simp
  · have hpe : ¬p = ({} : Pfx) := fun hc => h3 ((Pfx.eq_empty_iff p).mp hc).2.2
    obtain ⟨a, b, hab, ha, hb⟩ := h4
    have hstr : Pfx.str p = p.host := by
      rw [Pfx.str, if_neg (fun hc => h3 hc.2.2), if_pos ⟨h1, h2⟩]
    rw [pfxChars, if_neg hpe, hstr,
      show (':' :: (p.host.toList ++ [' '])) ++ rest = ':' :: (p.host.toList ++ ' ' :: rest)
        from by simp,
      lexAfterTags_colon, hab,
      show (a ++ '.' :: b) ++ ' ' :: rest = a ++ '.' :: (b ++ ' ' :: rest) from by simp,
      lexNickname_hostform a b rest ha hb, hdrop,
      pfxItems, if_neg (fun hc => h3 hc.2.2), if_pos ⟨h1, h2⟩,
      ← hab, asString_toList, hafter]
    simp
  · have hpe : ¬p = ({} : Pfx) := fun hc => h1 ((Pfx.eq_empty_iff p).mp hc).1
    have hstr : Pfx.str p = p.nick := by
      rw [Pfx.str, if_neg (fun hc => h1 hc.1), if_neg (fun hc => h1 hc.1), if_pos h2]
    rw [pfxChars, if_neg hpe, hstr,
      show (':' :: (p.nick.toList ++ [' '])) ++ rest = ':' :: (p.nick.toList ++ ' ' :: rest)
        from by simp,
      lexAfterTags_colon, lexNickname_nickonly p.nick.toList rest h4 hne hh1,
      pfxItems, if_neg (fun hc => h1 hc.1), if_neg (fun hc => h1 hc.1), if_pos h2,
      asString_toList, hafter]
    simp
  · have hpe : ¬p = ({} : Pfx) := fun hc => h1 ((Pfx.eq_empty_iff p).mp hc).2.1
    have hstr : Pfx.str p = p.nick ++ "!" ++ p.user ++ "@" ++ p.host := by
      rw [Pfx.str, if_neg (fun hc => h1 hc.2.1), if_neg (fun hc => h1 hc.2), if_neg h1]
    rw [pfxChars, if_neg hpe, hstr,
      show (':' :: ((p.nick ++ "!" ++ p.user ++ "@" ++ p.host).toList ++ [' '])) ++ rest =
          ':' :: (p.nick.toList ++ '!' :: (p.user.toList ++ '@' :: (p.host.toList ++ ' ' :: rest)))
        from by simp [String.toList],
      lexAfterTags_colon, lexNickname_fulladdr p.nick.toList p.user.toList p.host.toList rest h2 h3 h4,
      hdrop,
      pfxItems, if_neg (fun hc => h1 hc.2.1), if_neg (fun hc => h1 hc.2), if_neg h1,
      asString_toList, asString_toList, asString_toList, hafter]
    rfl

/-- Replaying the source tokens of a well-formed source over a message whose
source was just reset installs exactly that source. -/
theorem runItems_pfxItems (p : Pfx) (hp : pfxOK p) (m : Message)
    (hm : m.source = ({} : Pfx)) (rest : List Item) :
    runItems m (pfxItems p ++ rest) = runItems { m with source := p } rest := by
  rcases hp with ⟨h1, h2, h3⟩ | ⟨h1, h2, h3, _⟩ | ⟨h1, h2, h3, _⟩ | ⟨h1, h2, h3, h4⟩
  · rw [pfxItems, if_pos ⟨h1, h2, h3⟩, List.nil_append,
      show p = ({} : Pfx) from (Pfx.eq_empty_iff p).mpr ⟨h1, h2, h3⟩, ← hm]
  · rw [pfxItems, if_neg (fun hc => h3 hc.2.2), if_pos ⟨h1, h2⟩,
      List.cons_append, List.nil_append, runItems_host]
    have hsrc : { m.source with host := p.host } = p := by
      rw [hm]
      exact Pfx.ext3 h1.symm h2.symm rfl
    rw [hsrc]
  · rw [pfxItems, if_neg (fun hc => h1 hc.1), if_neg (fun hc => h1 hc.1), if_pos h2,
      List.cons_append, List.nil_append, runItems_nickname]
    have hsrc : { m.source with nick := p.nick } = p := by
      rw [hm]
      exact Pfx.ext3 rfl h2.symm h3.symm
    rw [hsrc]
  · rw [pfxItems, if_neg (fun hc => h1 hc.2.1), if_neg (fun hc => h1 hc.2), if_neg h1,
      List.cons_append, List.cons_append, List.cons_append, List.nil_append,
      runItems_nickname, runItems_user, runItems_host]

theorem setPair_not_mem (l : List (String × String)) (k v : String)
    (h : ¬k ∈ l.map Prod.fst) : setPair l k v = l ++ [(k, v)] := by
  induction l with
  | nil => rfl
  | cons kv r ih =>
    simp only [setPair]
    rw [if_neg (fun he => h (by simp [he])), ih (fun hm => h (by simp [hm]))]
    simp

theorem foldl_Set_acc : ∀ (ts acc : List (String × String)),
    (∀ k ∈ ts.map Prod.fst, ¬k ∈ acc.map Prod.fst) → (ts.map Prod.fst).Nodup →
    ts.foldl (fun a kv => Tags.Set a kv.1 kv.2) (some acc) = some (acc ++ ts) := by
  intro ts
  induction ts with
  | nil =>
    intro acc _ _
    simp
  | cons kv ts' ih =>
    intro acc hdisj hnd
    rw [List.foldl_cons]
    have hset : Tags.Set (some acc) kv.1 kv.2 = some (acc ++ [kv]) := by
      rw [Tags.Set]
      simp only [Option.getD_some]
      rw [setPair_not_mem acc kv.1 kv.2 (hdisj kv.1 (by simp))]
    rw [List.map_cons, List.nodup_cons] at hnd
    rw [hset, ih (acc ++ [kv]) ?_ hnd.2]
    · simp
    · intro k hk hmem
      rw [List.map_append] at hmem
      rcases List.mem_append.mp hmem with hA | hB
      · exact hdisj k (by simp [hk]) hA
      · simp at hB
        rw [hB] at hk
        exact hnd.1 hk

theorem foldl_Set_reset (ts : List (String × String))
    (hnd : (ts.map Prod.fst).Nodup) (hne : ¬ts = []) :
    ts.foldl (fun a kv => Tags.Set a kv.1 kv.2) none = some ts := by
  cases ts with
  | nil => exact absurd rfl hne
  | cons kv ts' =>
    rw [List.map_cons, List.nodup_cons] at hnd
    rw [List.foldl_cons,
      show Tags.Set none kv.1 kv.2 = some [kv] from rfl,
      foldl_Set_acc ts' [kv] ?_ hnd.2]
    · simp
    · intro k hk hmem
      simp at hmem
      rw [hmem] at hk
      exact hnd.1 hk

/-- Replaying the tag tokens of a marshalled tag list folds `Tags.Set` over
the decoded (unescaped) pairs. -/
theorem runItems_tagItems : ∀ (ts : List (String × String)) (m : Message) (rest : List Item),
    (∀ kv ∈ ts, ¬kv.1 = "") →
    runItems m (tagItems ts ++ rest) =
      runItems { m with tags := ts.foldl (fun a kv => Tags.Set a kv.1 kv.2) m.tags } rest := by
  intro ts
  induction ts with
  | nil =>
    intro m rest _
    rfl
  | cons kv ts' ih =>
    intro m rest hk
    rw [show tagItems (kv :: ts') ++ rest =
        .tagKey kv.1 :: .tagValue (escaperReplace kv.2) :: (tagItems ts' ++ rest) from by
      simp [tagItems]]
    rw [runItems_tagKey, if_neg (hk kv (by simp)),
      show Item.val (Item.tagValue (escaperReplace kv.2)) = escaperReplace kv.2 from rfl,
      unescaperReplace_escaperReplace,
      ih _ rest (fun kv2 h2 => hk kv2 (by simp [h2])), List.foldl_cons]

/-- Replaying the parameter tokens appends every parameter in order and the
end of the stream accepts. -/
theorem runItems_params : ∀ (ps : List String) (m : Message),
    runItems m (ps.map (fun p => Item.param p) ++ [Item.eof]) =
      .ok { m with params := m.params ++ ps } := by
  intro ps
  induction ps with
  | nil =>
    intro m
    rw [List.map_nil, List.nil_append, runItems_eof, List.append_nil]
  | cons p ps' ih =>
    intro m
    rw [List.map_cons, List.cons_append, runItems_param, ih]
    rw [show ({ m with params := m.params ++ [p] } : Message).params = m.params ++ [p] from rfl,
      List.append_assoc]
    rfl

/-- C1 (amended): for every well-formed message — legal nonempty distinct tag
keys, a source triple in one of the four re-parsable shapes, a command that is
nonempty, space-free and does not begin with `@` or `:`, and parameters whose
non-final members are nonempty, space-free and do not begin with `:` (no
parameter containing a raw CR or LF) — decoding the encoded bytes (after the
line scanner strips the CR-LF terminator) succeeds and reproduces every tag
key/value pair, the full source triple, the command, and every parameter
value exactly. -/
theorem c1_amended (m : Message) (hwf : wellFormed m) (hinc : m.includeSource = true) :
    ∃ d, Message.UnmarshalText ({} : Message) (stripCRLF (m.MarshalText).1) = .ok d ∧
      Tags.pairs d.tags = Tags.pairs m.tags ∧ d.source = m.source ∧
      d.command = m.command ∧ d.params = m.params := by
  obtain ⟨htags, hpfx, hcmd, hps⟩ := hwf
  obtain ⟨hc1, hc2, hc3, hc4⟩ := hcmd
  have hcl : ¬m.command.toList = [] := fun hnil => hc1 (toList_eq_nil _ hnil)
  obtain ⟨cc, cr, hcc⟩ : ∃ cc cr, m.command.toList = cc :: cr := by
    cases hx : m.command.toList with
    | nil => exact absurd hx hcl
    | cons cc cr => exact ⟨cc, cr, rfl⟩
  have hccs : ¬cc = ' ' := hc2 cc (by rw [hcc]; simp)
  have hcca : ¬cc = '@' := by rw [hcc] at hc3; simpa using hc3
  have hccc : ¬cc = ':' := by rw [hcc] at hc4; simpa using hc4
  have hrest0 : m.command.toList ++ paramChars m.params = cc :: (cr ++ paramChars m.params) := by
    rw [hcc]
    rfl
  have hrne : ¬(m.command.toList ++ paramChars m.params) = [] := by rw [hrest0]; simp
  have hrh1 : ¬(m.command.toList ++ paramChars m.params).head? = some ' ' := by
    rw [hrest0]
    simpa using hccs
  have hrh2 : ¬(m.command.toList ++ paramChars m.params).head? = some ':' := by
    rw [hrest0]
    simpa using hccc
  have hcore : lexAfterTags (m.command.toList ++ paramChars m.params) =
      .command m.command :: (m.params.map (fun p => Item.param p) ++ [.eof]) := by
    rw [hrest0, lexAfterTags_of_ne cc _ hccc, ← hrest0,
      scanCmdParams m.command.toList m.params hcl hc2 hps.1, asString_toList]
  have hsrcscan : lexAfterTags (pfxChars m.source ++ (m.command.toList ++ paramChars m.params)) =
      pfxItems m.source ++ lexAfterTags (m.command.toList ++ paramChars m.params) :=
    scanPfx m.source hpfx _ hrne hrh1 hrh2
  have hafterhead : ¬(pfxChars m.source ++
      (m.command.toList ++ paramChars m.params)).head? = some ' ' := by
    rw [pfxChars]
    by_cases hpe : m.source = ({} : Pfx)
    · rw [if_pos hpe, List.nil_append]
      exact hrh1
    · rw [if_neg hpe, List.cons_append]
      simp
  have hdropafter : dropSpaces (pfxChars m.source ++ (m.command.toList ++ paramChars m.params)) =
      pfxChars m.source ++ (m.command.toList ++ paramChars m.params) := by
    cases hx : pfxChars m.source ++ (m.command.toList ++ paramChars m.params) with
    | nil => rfl
    | cons d dr =>
      have hd : ¬d = ' ' := by
        rw [hx] at hafterhead
        simpa using hafterhead
      exact dropSpaces_cons_of_ne d dr hd
  have hstartafter : lexStart (pfxChars m.source ++ (m.command.toList ++ paramChars m.params)) =
      lexAfterTags (pfxChars m.source ++ (m.command.toList ++ paramChars m.params)) := by
    rw [pfxChars]
    by_cases hpe : m.source = ({} : Pfx)
    · rw [if_pos hpe, List.nil_append, hrest0]
      exact lexStart_eq_lexAfterTags cc _ hcca
    · rw [if_neg hpe, List.cons_append]
      exact lexStart_eq_lexAfterTags ':' _ (by decide)
  have hstrip : stripCRLF (m.MarshalText).1 =
      marshalTagSec m ++ (pfxChars m.source ++ (m.command.toList ++ paramChars m.params)) := by
    rw [marshalText_fst, marshalBuf, marshalPfxSec_inc m hinc,
      show marshalTagSec m ++ pfxChars m.source ++ m.command.toList ++ paramChars m.params ++
          ['\r', '\n'] =
        (marshalTagSec m ++ (pfxChars m.source ++ (m.command.toList ++ paramChars m.params))) ++
          ['\r', '\n'] from by simp,
      stripCRLF_append]
  cases htg : m.tags with
  | none =>
    have hsec : marshalTagSec m = [] := by simp [marshalTagSec, htg]
    have hlex : lex (stripCRLF (m.MarshalText).1) =
        pfxItems m.source ++
          (.command m.command :: (m.params.map (fun p => Item.param p) ++ [.eof])) := by
      rw [show lex (stripCRLF (m.MarshalText).1) = lexStart (stripCRLF (m.MarshalText).1)
          from rfl,
        hstrip, hsec, List.nil_append, hstartafter, hsrcscan, hcore]
    refine ⟨Message.mk none m.source m.command m.params false, ?_, ?_, rfl, rfl, rfl⟩
    · show runItems ({} : Message) (lex (stripCRLF (m.MarshalText).1)) = _
      rw [hlex, runItems_pfxItems m.source hpfx, runItems_command, runItems_params]
      all_goals rfl
    · rfl
  | some ts =>
    rw [htg] at htags
    obtain ⟨hkeys, hnd⟩ := htags
    have hsec : marshalTagSec m = '@' :: (tagBody ts ++ [' ']) := by
      simp [marshalTagSec, htg]
    by_cases hts : ts = []
    · subst hts
      have hlex : lex (stripCRLF (m.MarshalText).1) =
          .tagKey "" :: .tagValue "" ::
            (pfxItems m.source ++
              (.command m.command :: (m.params.map (fun p => Item.param p) ++ [.eof]))) := by
        rw [show lex (stripCRLF (m.MarshalText).1) = lexStart (stripCRLF (m.MarshalText).1)
            from rfl,
          hstrip, hsec,
          show ('@' :: (tagBody [] ++ [' '])) ++
              (pfxChars m.source ++ (m.command.toList ++ paramChars m.params)) =
            '@' :: ' ' :: (pfxChars m.source ++ (m.command.toList ++ paramChars m.params))
            from by simp [tagBody],
          lexStart_at, lexTagKey_space, lexTagValue_space, hdropafter, hsrcscan, hcore]
        rfl
      refine ⟨Message.mk none m.source m.command m.params false, ?_, ?_, rfl, rfl, rfl⟩
      · show runItems ({} : Message) (lex (stripCRLF (m.MarshalText).1)) = _
        rw [hlex, runItems_tagKey, if_pos rfl,
          runItems_pfxItems m.source hpfx, runItems_command, runItems_params]
        all_goals rfl
      · rfl
    · have hkeys1 : ∀ kv ∈ ts, ¬kv.1 = "" := fun kv h => (hkeys kv h).1
      have hkeys2 : ∀ kv ∈ ts, ∀ c ∈ kv.1.toList, invalidTagNameChar c = false :=
        fun kv h => (hkeys kv h).2
      have hlex : lex (stripCRLF (m.MarshalText).1) =
          tagItems ts ++
            (pfxItems m.source ++
              (.command m.command :: (m.params.map (fun p => Item.param p) ++ [.eof]))) := by
        rw [show lex (stripCRLF (m.MarshalText).1) = lexStart (stripCRLF (m.MarshalText).1)
            from rfl,
          hstrip, hsec,
          show ('@' :: (tagBody ts ++ [' '])) ++
              (pfxChars m.source ++ (m.command.toList ++ paramChars m.params)) =
            '@' :: (tagBody ts ++ ' ' ::
              (pfxChars m.source ++ (m.command.toList ++ paramChars m.params))) from by simp,
          lexStart_at, scanTags ts _ hts hkeys2, hdropafter, hsrcscan, hcore]
      refine ⟨Message.mk (some ts) m.source m.command m.params false, ?_, ?_, rfl, rfl, rfl⟩
      · show runItems ({} : Message) (lex (stripCRLF (m.MarshalText).1)) = _
        rw [hlex, runItems_tagItems ts ({} : Message) _ hkeys1,
          show List.foldl (fun a kv => Tags.Set a kv.1 kv.2) (({} : Message)).tags ts = some ts
            from foldl_Set_reset ts hnd hts,
          runItems_pfxItems m.source hpfx, runItems_command, runItems_params]
        all_goals rfl
      · rfl

/-- A message satisfying the claim's stated hypotheses (legal tag keys, no raw
CR/LF in any parameter, source marshalling enabled) whose first parameter
contains a space. -/
def c1msg : Message :=
  { command := "PRIVMSG", params := ["a b", "c"], includeSource := true }

/-- C1 counterexample: the claim's hypotheses restrict only the tag keys and
CR/LF in parameter values, but a non-final parameter containing a space does
not round-trip: `c1msg` encodes to `PRIVMSG a b :c` and decodes with
parameters `["a", "b", "c"]`, not `["a b", "c"]`. -/
theorem c1_counterexample :
    (∀ kv ∈ Tags.pairs c1msg.tags, ∀ c ∈ kv.1.toList, invalidTagNameChar c = false) ∧
    (∀ p ∈ c1msg.params, ∀ c ∈ p.toList, ¬c = '\r' ∧ ¬c = '\n') ∧
    c1msg.includeSource = true ∧
    ∀ d, Message.UnmarshalText ({} : Message) (stripCRLF (c1msg.MarshalText).1) = .ok d →
      ¬d.params = c1msg.params := by
  have h1 : stripCRLF (Message.MarshalText c1msg).1 =
      "PRIVMSG".toList ++ paramChars ["a", "b", "c"] := by decide
  have h2 : lex (stripCRLF (Message.MarshalText c1msg).1) =
      [.command "PRIVMSG", .param "a", .param "b", .param "c", .eof] := by
    rw [h1,
      show lex ("PRIVMSG".toList ++ paramChars ["a", "b", "c"]) =
        lexCommandA [] ("PRIVMSG".toList ++ paramChars ["a", "b", "c"]) from rfl,
      scanCmdParams "PRIVMSG".toList ["a", "b", "c"] (by decide) (by decide) (by decide)]
    rfl
  have h3 : Message.UnmarshalText ({} : Message) (stripCRLF (c1msg.MarshalText).1) =
      .ok (Message.mk none {} "PRIVMSG" ["a", "b", "c"] false) := by
    show runItems ({} : Message) (lex (stripCRLF (Message.MarshalText c1msg).1)) = _
    rw [h2]
    rfl
  refine ⟨by decide, by decide, rfl, ?_⟩
  intro d hd
  rw [h3] at hd
  injection hd with hdd
  rw [← hdd]
  decide

/-- A fully populated well-formed message for the C1 witness. -/
def c1wit : Message :=
  { tags := some [("key", "va lue")]
    source := { nick := "nick", user := "user", host := "irc.example.com" }
    command := "PRIVMSG"
    params := ["#chan", "hello world"]
    includeSource := true }

/-- C1 witness: the amended round trip at a concrete message carrying a tag
with an escaped value, a full source triple, and a trailing parameter with a
space. -/
theorem c1_witness :
    wellFormed c1wit ∧ c1wit.includeSource = true ∧
    ∃ d, Message.UnmarshalText ({} : Message) (stripCRLF (c1wit.MarshalText).1) = .ok d ∧
      Tags.pairs d.tags = Tags.pairs c1wit.tags ∧ d.source = c1wit.source ∧
      d.command = c1wit.command ∧ d.params = c1wit.params := by
  have hwf : wellFormed c1wit := by
    refine ⟨⟨?_, ?_⟩, Or.inr (Or.inr (Or.inr ⟨?_, ?_, ?_, ?_⟩)), ⟨?_, ?_, ?_, ?_⟩, ⟨?_, ?_⟩⟩
    · exact (by decide :
        ∀ kv ∈ [("key", "va lue")], ¬kv.1 = "" ∧ ∀ c ∈ kv.1.toList, invalidTagNameChar c = false)
    · exact (by decide : ([("key", "va lue")].map Prod.fst).Nodup)
    · exact (by decide : ¬"user" = "")
    · exact (by decide : ∀ c ∈ "nick".toList, ¬c = ' ' ∧ ¬c = '.' ∧ ¬c = '!')
    · exact (by decide : ∀ c ∈ "user".toList, ¬c = '@' ∧ ¬c = ' ')
    · exact (by decide : ∀ c ∈ "irc.example.com".toList, ¬c = ' ')
    · exact (by decide : ¬"PRIVMSG" = "")
    · exact (by decide : ∀ ch ∈ "PRIVMSG".toList, ¬ch = ' ')
    · exact (by decide : ¬"PRIVMSG".toList.head? = some '@')
    · exact (by decide : ¬"PRIVMSG".toList.head? = some ':')
    · exact (by decide : ∀ p ∈ (["#chan", "hello world"] : List String).dropLast,
        ¬p = "" ∧ (∀ c ∈ p.toList, ¬c = ' ') ∧ ¬p.toList.head? = some ':')
    · exact (by decide : ∀ p ∈ (["#chan", "hello world"] : List String),
        ∀ c ∈ p.toList, ¬c = '\r' ∧ ¬c = '\n')
  exact ⟨hwf, rfl, c1_amended c1wit hwf rfl⟩

end Irc
